import Mathlib

/-!
# gobfs: a single-hash membership filter over a growable flag array

Shallow embedding of `src/gobfs.go`.

* Go `int` and `int64` are 64-bit two-complement integers.  They are modelled as `Int`
  restricted to `[-2^63, 2^63)`; every arithmetic result that can leave the range is passed
  through `wrapInt`.  `uint64` is `Nat` reduced modulo `2^64`.
* The package-level variable `bitset []bool` is modelled as a `List Bool` passed in and out
  of every function that can touch it.
* A run-time panic is modelled as `Except.error`.  `make` panics as the runtime function
  `makeslice` does: on a negative length and on a size above `maxAlloc`.  Running out of
  memory below that limit is a fatal error of the process, not a panic, and is not modelled.
* `hash.Hash` is an interface; the two methods that `CreateHash` calls are fields of `Hash`.
* `binary.ReadVarint` and `binary.ReadUvarint` are embedded from the Go standard library.
-/

namespace Gobfs

/-! ## Machine integers -/

/-- Smallest value of the Go type `int` on a 64-bit platform. -/
def minInt : Int := -(2 ^ 63)

/-- Largest value of the Go type `int` on a 64-bit platform. -/
def maxInt : Int := 2 ^ 63 - 1

/-- Membership of an integer in the range of the Go type `int`. -/
def isInt (z : Int) : Prop := minInt ≤ z ∧ z ≤ maxInt

instance (z : Int) : Decidable (isInt z) := by
  unfold isInt; exact inferInstance

/-- Two-complement wrap-around of a mathematical integer into the 64-bit signed range. -/
def wrapInt (z : Int) : Int := (z + 2 ^ 63) % 2 ^ 64 - 2 ^ 63

/-! ## Run-time faults -/

/-- The run-time panics that the embedded code can raise. -/
inductive Panic where
  /-- Indexing a slice outside `0 <= i < len`. -/
  | indexOutOfRange
  /-- The panic `makeslice: len out of range` of `make([]bool, n)`. -/
  | makesliceLen
  deriving DecidableEq, Repr

deriving instance DecidableEq for Except

/-! ## Slice primitives -/

/-- The Go builtin `len` on a slice of flags, as an `int`. -/
def len (b : List Bool) : Int := (b.length : Int)

/-- The runtime constant `maxAlloc` on a 64-bit platform with 48 heap address bits: the
largest size in bytes that `makeslice` accepts. -/
def maxAlloc : Int := 2 ^ 48

/-- The Go builtin `make([]bool, n)`, as the runtime function `makeslice` implements it: a
panic when `n < 0` or when the size (`n` bytes, one per `bool`) exceeds `maxAlloc`, a
zeroed slice of length `n` otherwise. -/
def make (n : Int) : Except Panic (List Bool) :=
  if n < 0 ∨ n > maxAlloc then .error .makesliceLen else .ok (List.replicate n.toNat false)

/-- The Go builtin `copy(dst, src)`: overwrite the first `min (len dst) (len src)` elements
of `dst` with those of `src`. -/
def copy (dst src : List Bool) : List Bool :=
  src.take dst.length ++ dst.drop src.length

/-- The indexed read `b[i]`. -/
def index (b : List Bool) (i : Int) : Except Panic Bool :=
  if 0 ≤ i ∧ i < len b then .ok (b.getD i.toNat false) else .error .indexOutOfRange

/-- The indexed write `b[i] = v`. -/
def setIndex (b : List Bool) (i : Int) (v : Bool) : Except Panic (List Bool) :=
  if 0 ≤ i ∧ i < len b then .ok (b.set i.toNat v) else .error .indexOutOfRange

/-! ## `parseIdx`, `AddToHash`, `GetFromHash` -/

/-- Source `parseIdx` (gobfs.go:119-125): negate a negative index, with wrap-around. -/
def parseIdx (idx : Int) : Int :=
  if idx < 0 then wrapInt (-idx) else idx

/-- Source `AddToHash` (gobfs.go:84-96), on the global `bitset`. -/
def AddToHash (idx : Int) (bitset : List Bool) : Except Panic (List Bool) :=
  let idx := if idx < 0 then wrapInt (-idx) else idx
  if parseIdx idx ≥ len bitset then
    match make (wrapInt (idx + 1)) with
    | .error p => .error p
    | .ok newBitset => setIndex (copy newBitset bitset) idx true
  else
    setIndex bitset idx true

/-- Source `GetFromHash` (gobfs.go:115-117), reading the global `bitset`. -/
def GetFromHash (idx : Int) (bitset : List Bool) : Except Panic Bool :=
  index bitset idx

/-! ## Byte strings, errors and the hash interface -/

/-- A byte.  Go strings and digests are byte sequences. -/
abbrev Byte := Fin 256

/-- The error values that `CreateHash` can return. -/
inductive GoError where
  /-- The value built by `errors.New` at gobfs.go:50. -/
  | stringCantBeEmpty
  /-- Standard library `io.EOF`. -/
  | EOF
  /-- Standard library `io.ErrUnexpectedEOF`. -/
  | ErrUnexpectedEOF
  /-- Standard library `binary.errOverflow` (varint overflows a 64-bit integer). -/
  | errOverflow
  deriving DecidableEq, Repr

/-- Source `CreateHashStruct` (gobfs.go:17-20); `Error = none` is the Go `nil`. -/
structure CreateHashStruct where
  Idx : Int
  Error : Option GoError
  deriving DecidableEq, Repr

/-- The methods of the interface `hash.Hash` that `CreateHash` calls, over the internal
state `σ` of an implementation.  `Write` absorbs bytes; `Sum b` appends the digest of what
was absorbed so far to `b` and leaves the state alone. -/
structure Hash (σ : Type) where
  Write : σ → List Byte → σ
  Sum : σ → List Byte → List Byte

/-! ## `encoding/binary`: `ReadUvarint` and `ReadVarint` -/

/-- Standard library constant `binary.MaxVarintLen64`. -/
def MaxVarintLen64 : Nat := 10

/-- The loop of `binary.ReadUvarint`, entered with loop counter `i`, accumulator `x` and
shift `s`, reading from the unread bytes of the buffer.  Each iteration consumes one byte,
so the recursion is on the buffer. -/
def ReadUvarintLoop (i x s : Nat) : List Byte → Nat × Option GoError
  | [] =>
    if i < MaxVarintLen64 then
      (x, some (if i > 0 then GoError.ErrUnexpectedEOF else GoError.EOF))
    else (x, some GoError.errOverflow)
  | b :: r =>
    if i < MaxVarintLen64 then
      if b.val < 0x80 then
        if i = MaxVarintLen64 - 1 ∧ b.val > 1 then (x, some GoError.errOverflow)
        else (x ||| (b.val <<< s) % 2 ^ 64, none)
      else ReadUvarintLoop (i + 1) (x ||| ((b.val &&& 0x7f) <<< s) % 2 ^ 64) (s + 7) r
    else (x, some GoError.errOverflow)

/-- Standard library `binary.ReadUvarint` on a `bytes.Buffer` holding `r`. -/
def ReadUvarint (r : List Byte) : Nat × Option GoError :=
  ReadUvarintLoop 0 0 0 r

/-- Standard library `binary.ReadVarint`: zigzag decoding of the unsigned value, computed
also when `ReadUvarint` reports an error. -/
def ReadVarint (r : List Byte) : Int × Option GoError :=
  let (ux, err) := ReadUvarint r
  let x : Int := wrapInt ((ux >>> 1 : Nat) : Int)
  let x := if ux &&& 1 ≠ 0 then ~~~x else x
  (x, err)

/-! ## `CreateHash` -/

/-- What a call of `CreateHash` leaves behind: the returned struct, the state of the hash
instance of the caller, and the global `bitset`. -/
structure Outcome (σ : Type) where
  ret : CreateHashStruct
  h : σ
  bitset : List Bool

/-- Source `CreateHash` (gobfs.go:46-69).  `s` is the byte sequence of the Go string, so
`s.length` is `len(s)`. -/
def CreateHash {σ : Type} (H : Hash σ) (h : σ) (s : List Byte) (bitset : List Bool) :
    Outcome σ :=
  if s.length > 1 then
    { ret := { Idx := 0, Error := some GoError.stringCantBeEmpty }, h := h, bitset := bitset }
  else
    let h := H.Write h s
    let bits := H.Sum h []
    match ReadVarint bits with
    | (_, some err) => { ret := { Idx := 0, Error := some err }, h := h, bitset := bitset }
    | (bufId, none) =>
      { ret := { Idx := parseIdx bufId, Error := none }, h := h, bitset := bitset }

/-! ## The varint format, as the specification words it

These definitions follow the wording of the specification (a little-endian base-128
unsigned value `u < 2^64`, ended by a byte `< 0x80` within the first 10 bytes, zigzag
decoded); they are compared with `ReadUvarint` and `ReadVarint` below. -/

/-- Number of bytes up to and including the first byte below `0x80`, if there is one. -/
def specVarintLen : List Byte → Option Nat
  | [] => none
  | b :: r => if b.val < 0x80 then some 1 else (specVarintLen r).map (· + 1)

/-- Little-endian base-128 value of a byte sequence: seven payload bits per byte. -/
def specBase128 : List Byte → Nat
  | [] => 0
  | b :: r => b.val % 128 + 128 * specBase128 r

/-- The unsigned value `u` of the varint that `d` begins with: `none` when `d` ends before a
byte below `0x80`, when that byte is not among the first 10, or when `u` is not below
`2^64`. -/
def specUvarint (d : List Byte) : Option Nat :=
  match specVarintLen d with
  | none => none
  | some n =>
    if n ≤ 10 ∧ specBase128 (d.take n) < 2 ^ 64 then some (specBase128 (d.take n)) else none

/-- Zigzag decoding: `u / 2` for even `u`, `-(u + 1) / 2` for odd `u`. -/
def specZigzag (u : Nat) : Int :=
  if u % 2 = 0 then ((u / 2 : Nat) : Int) else -(((u + 1) / 2 : Nat) : Int)

/-! ## The global `bitset` across calls

`AddToHash` and `GetFromHash` above return what the call returns.  The definitions below
follow the same source lines and keep, in addition, the global `bitset` as the call leaves
it, also when control leaves by a panic: an assignment made before the panic stays. -/

/-- Source `AddToHash` (gobfs.go:84-96) with the global it leaves: the `bitset` when
control leaves the function, and the panic if it left by one.  The assignment
`bitset = newBitset` at line 92 happens before the write at line 95. -/
def AddToHashGlobal (idx : Int) (bitset : List Bool) : List Bool × Option Panic :=
  let idx := if idx < 0 then wrapInt (-idx) else idx
  if parseIdx idx ≥ len bitset then
    match make (wrapInt (idx + 1)) with
    | .error p => (bitset, some p)
    | .ok newBitset =>
      match setIndex (copy newBitset bitset) idx true with
      | .error p => (copy newBitset bitset, some p)
      | .ok b => (b, none)
  else
    match setIndex bitset idx true with
    | .error p => (bitset, some p)
    | .ok b => (b, none)

/-- Source `GetFromHash` (gobfs.go:115-117) with the global it leaves: the function body
is a single read, so the `bitset` is handed back as it came. -/
def GetFromHashGlobal (idx : Int) (bitset : List Bool) : List Bool × Except Panic Bool :=
  (bitset, index bitset idx)

/-- The condition at gobfs.go:89: whether `AddToHash(idx)` allocates a new backing array. -/
def reallocates (idx : Int) (bitset : List Bool) : Bool :=
  decide (parseIdx (if idx < 0 then wrapInt (-idx) else idx) ≥ len bitset)

/-- A sequence of calls `AddToHash(i_1); ...; AddToHash(i_m)` that stops at the first
panic: the state reached when every call completes. -/
def AddToHashAll : List Int → List Bool → Except Panic (List Bool)
  | [], bitset => .ok bitset
  | i :: rest, bitset =>
    match AddToHash i bitset with
    | .error p => .error p
    | .ok b => AddToHashAll rest b

/-- The global `bitset` after the calls `AddToHash(i_1); ...; AddToHash(i_m)`, each call
starting from the global the previous one left (a panicking call included). -/
def AddToHashSeq : List Int → List Bool → List Bool
  | [], bitset => bitset
  | i :: rest, bitset => AddToHashSeq rest (AddToHashGlobal i bitset).1

/-! ## Auxiliary definitions for the proofs -/

/-- The storage that `AddToHash n` leaves, for `0 <= n < maxAlloc`. -/
def grownSet (n : Int) (bitset : List Bool) : List Bool :=
  if n ≥ len bitset then
    (bitset ++ List.replicate (n.toNat + 1 - bitset.length) false).set n.toNat true
  else bitset.set n.toNat true

/-- The successful result of a standard library read: the value when the error is `nil`. -/
def okValue {α : Type} (r : α × Option GoError) : Option α :=
  match r.2 with
  | none => some r.1
  | some _ => none

/-- The specification of the format, for a reader that has already consumed `i` bytes
whose payload is `x`. -/
def specUvarintFrom (i x : Nat) (r : List Byte) : Option Nat :=
  match specVarintLen r with
  | none => none
  | some n =>
    if i + n ≤ 10 ∧ x + 2 ^ (7 * i) * specBase128 (r.take n) < 2 ^ 64 then
      some (x + 2 ^ (7 * i) * specBase128 (r.take n))
    else none

/-! ## Concrete hash instances used as test inputs -/

/-- A hash implementation whose digest is the fixed byte sequence `d` whatever it absorbed;
its state records the absorbed bytes. -/
def constHash (d : List Byte) : Hash (List Byte) where
  Write st p := st ++ p
  Sum _ b := b ++ d

/-- The SHA-256 digest of the empty input, `e3b0c442...7852b855`: what `sha256.New()`
returns from `Sum(nil)` after `Write` of zero bytes. -/
def sha256OfEmpty : List Byte :=
  [0xe3, 0xb0, 0xc4, 0x42, 0x98, 0xfc, 0x1c, 0x14, 0x9a, 0xfb, 0xf4, 0xc8, 0x99, 0x6f, 0xb9,
   0x24, 0x27, 0xae, 0x41, 0xe4, 0x64, 0x9b, 0x93, 0x4c, 0xa4, 0x95, 0x99, 0x1b, 0x78, 0x52,
   0xb8, 0x55]

/-- The ten-byte varint of the largest unsigned 64-bit value, `2^64 - 1`. -/
def maxUvarintBytes : List Byte :=
  [0xff, 0xff, 0xff, 0xff, 0xff, 0xff, 0xff, 0xff, 0xff, 0x01]

/-! ## Arithmetic of the machine integers -/

theorem wrapInt_of_isInt (z : Int) (h : isInt z) : wrapInt z = z := by
  simp only [isInt, minInt, maxInt] at h
  simp only [wrapInt]
  omega

theorem wrapInt_isInt (z : Int) : isInt (wrapInt z) := by
  simp only [isInt, minInt, maxInt, wrapInt]
  omega

theorem wrapInt_neg_minInt : wrapInt (-minInt) = minInt := by decide

theorem parseIdx_of_nonneg (n : Int) (h : 0 ≤ n) : parseIdx n = n := by
  simp only [parseIdx]
  rw [if_neg (by omega)]

theorem parseIdx_of_neg (n : Int) (h : n < 0) (h1 : minInt < n) : parseIdx n = -n := by
  simp only [parseIdx, minInt] at *
  rw [if_pos h]
  simp only [wrapInt]
  omega

theorem parseIdx_isInt (i : Int) (h : isInt i) : isInt (parseIdx i) := by
  unfold parseIdx
  split
  · exact wrapInt_isInt _
  · exact h

/-- Away from the minimum int, `parseIdx` is the absolute value. -/
theorem parseIdx_eq_natAbs (i : Int) (h : isInt i) (hmin : i ≠ minInt) :
    parseIdx i = (i.natAbs : Int) := by
  simp only [isInt, minInt, maxInt] at h
  simp only [minInt] at hmin
  simp only [parseIdx, wrapInt]
  split <;> omega

/-- Away from the minimum int, `parseIdx` is non-negative. -/
theorem parseIdx_nonneg_of_ne_minInt (i : Int) (h : isInt i) (hmin : i ≠ minInt) :
    0 ≤ parseIdx i := by
  rw [parseIdx_eq_natAbs i h hmin]
  exact Int.ofNat_nonneg _

/-! ## The storage primitives -/

theorem len_nonneg (b : List Bool) : 0 ≤ len b := by
  simp [len]

theorem make_of_nonneg (n : Int) (h : 0 ≤ n) (h1 : n ≤ maxAlloc) :
    make n = .ok (List.replicate n.toNat false) := by
  simp only [make]
  rw [if_neg (by omega)]

theorem make_of_large (n : Int) (h : maxAlloc < n) : make n = .error Panic.makesliceLen := by
  simp only [make]
  rw [if_pos (Or.inr h)]

theorem maxAlloc_lt_maxInt : maxAlloc < maxInt := by decide

theorem length_copy (dst src : List Bool) (h : src.length ≤ dst.length) :
    (copy dst src).length = dst.length := by
  simp only [copy, List.length_append, List.length_take, List.length_drop]
  omega

theorem copy_replicate (n : Nat) (src : List Bool) (h : src.length ≤ n) :
    copy (List.replicate n false) src = src ++ List.replicate (n - src.length) false := by
  simp only [copy, List.length_replicate, List.drop_replicate]
  rw [List.take_of_length_le h]

theorem setIndex_of_lt (b : List Bool) (n : Int) (v : Bool) (h0 : 0 ≤ n) (h1 : n < len b) :
    setIndex b n v = .ok (b.set n.toNat v) := by
  simp only [setIndex]
  rw [if_pos ⟨h0, h1⟩]

theorem index_set_self (b : List Bool) (n : Int) (v : Bool) (h0 : 0 ≤ n) (h1 : n < len b) :
    index (b.set n.toNat v) n = .ok v := by
  have hlt : n.toNat < b.length := by
    simp only [len] at h1
    omega
  simp only [index, len, List.length_set]
  rw [if_pos ⟨h0, by simpa [len] using h1⟩]
  simp [List.getD_eq_getElem?_getD, List.getElem?_set, hlt]

/-! ## What `AddToHash` computes on an index in `[0, maxAlloc)` -/

theorem AddToHash_of_nonneg (n : Int) (bitset : List Bool) (h0 : 0 ≤ n)
    (h1 : n < maxAlloc) :
    AddToHash n bitset = .ok (grownSet n bitset) := by
  have hw : wrapInt (n + 1) = n + 1 := by
    apply wrapInt_of_isInt
    simp only [isInt, minInt, maxInt, maxAlloc] at *
    omega
  have hlen := len_nonneg bitset
  have hidx : (if n < 0 then wrapInt (-n) else n) = n := if_neg (by omega)
  simp only [AddToHash, grownSet, hidx, parseIdx_of_nonneg n h0, hw,
    make_of_nonneg (n + 1) (by omega) (by omega)]
  by_cases hge : n ≥ len bitset
  · rw [if_pos hge, if_pos hge]
    have hnat : (n + 1).toNat = n.toNat + 1 := by omega
    have hle : bitset.length ≤ n.toNat + 1 := by
      simp only [len] at hge
      omega
    simp only [hnat]
    rw [copy_replicate _ _ hle]
    apply setIndex_of_lt _ _ _ h0
    simp only [len, List.length_append, List.length_replicate]
    omega
  · rw [if_neg hge, if_neg hge]
    exact setIndex_of_lt _ _ _ h0 (by omega)

theorem length_grownSet (n : Int) (bitset : List Bool) (h0 : 0 ≤ n) :
    len (grownSet n bitset) = max (n + 1) (len bitset) := by
  simp only [grownSet, len]
  split
  · rename_i hge
    simp only [List.length_set, List.length_append, List.length_replicate]
    omega
  · rename_i hge
    simp only [List.length_set]
    omega

theorem GetFromHash_grownSet_self (n : Int) (bitset : List Bool) (h0 : 0 ≤ n) :
    GetFromHash n (grownSet n bitset) = .ok true := by
  simp only [GetFromHash, grownSet]
  split
  · rename_i hge
    simp only [len] at hge
    apply index_set_self _ _ _ h0
    simp only [len, List.length_append, List.length_replicate]
    omega
  · rename_i hge
    exact index_set_self _ _ _ h0 (by omega)

/-! ## `ReadUvarint` against the specification of the varint format -/

theorem specVarintLen_pos (r : List Byte) (n : Nat) (h : specVarintLen r = some n) :
    1 ≤ n := by
  cases r with
  | nil => simp [specVarintLen] at h
  | cons b r =>
    simp only [specVarintLen] at h
    split at h
    · simp at h; omega
    · cases hr : specVarintLen r with
      | none => simp [hr] at h
      | some m => simp [hr] at h; omega

theorem or_shiftLeft_eq_add (x y k : Nat) (hx : x < 2 ^ k) :
    x ||| y <<< k = x + 2 ^ k * y := by
  rw [Nat.shiftLeft_eq, Nat.mul_comm y, Nat.lor_comm, ← Nat.mul_add_lt_is_or hx, Nat.add_comm]

theorem specUvarintFrom_ten (x : Nat) (r : List Byte) : specUvarintFrom 10 x r = none := by
  simp only [specUvarintFrom]
  cases hr : specVarintLen r with
  | none => rfl
  | some n =>
    have := specVarintLen_pos r n hr
    simp only
    rw [if_neg (by omega)]

theorem okValue_loop_ten (x s : Nat) (r : List Byte) :
    okValue (ReadUvarintLoop 10 x s r) = none := by
  cases r <;> simp [ReadUvarintLoop, MaxVarintLen64, okValue]

theorem specUvarintFrom_cons (i x : Nat) (b : Byte) (r : List Byte) (hb : ¬ b.val < 0x80) :
    specUvarintFrom i x (b :: r) =
      specUvarintFrom (i + 1) (x + 2 ^ (7 * i) * (b.val % 128)) r := by
  simp only [specUvarintFrom, specVarintLen, if_neg hb]
  cases specVarintLen r with
  | none => rfl
  | some n =>
    have hval : x + 2 ^ (7 * i) * specBase128 ((b :: r).take (n + 1)) =
        x + 2 ^ (7 * i) * (b.val % 128) + 2 ^ (7 * (i + 1)) * specBase128 (r.take n) := by
      simp only [List.take_succ_cons, specBase128]
      ring
    have hlen : i + (n + 1) ≤ 10 ↔ i + 1 + n ≤ 10 := by omega
    simp only [Option.map_some', hval, hlen]

theorem okValue_loop (r : List Byte) : ∀ i x : Nat, i ≤ 10 → x < 2 ^ (7 * i) →
    okValue (ReadUvarintLoop i x (7 * i) r) = specUvarintFrom i x r := by
  induction r with
  | nil =>
    intro i x _ _
    simp only [ReadUvarintLoop, specUvarintFrom, specVarintLen]
    split <;> rfl
  | cons b r ih =>
    intro i x hi hx
    rcases Nat.eq_or_lt_of_le hi with h10 | hlt
    · subst h10
      rw [specUvarintFrom_ten]
      exact okValue_loop_ten _ _ _
    · have hb := b.isLt
      have hpow : (2 : Nat) ^ (7 * i) ≤ 2 ^ 63 :=
        Nat.pow_le_pow_right (by decide) (by omega)
      have hpos : 0 < (2 : Nat) ^ (7 * i) := Nat.two_pow_pos _
      simp only [ReadUvarintLoop, MaxVarintLen64]
      rw [if_pos hlt]
      by_cases hsmall : b.val < 0x80
      · rw [if_pos hsmall]
        have hbase : specBase128 ((b :: r).take 1) = b.val := by
          simp only [List.take_succ_cons, List.take_zero, specBase128]
          omega
        simp only [specUvarintFrom, specVarintLen, if_pos hsmall, hbase]
        by_cases hov : i = 10 - 1 ∧ b.val > 1
        · rw [if_pos hov]
          obtain ⟨h9, hb1⟩ := hov
          have h9 : i = 9 := by omega
          subst h9
          have : 2 ^ 64 ≤ x + 2 ^ (7 * 9) * b.val := by
            have : 2 ^ (7 * 9) * 2 ≤ 2 ^ (7 * 9) * b.val := Nat.mul_le_mul_left _ hb1
            norm_num at this ⊢
            omega
          rw [if_neg (by omega)]
          rfl
        · rw [if_neg hov]
          have hy : 2 ^ (7 * i) * b.val < 2 ^ 64 ∧ x + 2 ^ (7 * i) * b.val < 2 ^ 64 := by
            by_cases h9 : i = 9
            · have hb1 : b.val ≤ 1 := by omega
              have : 2 ^ (7 * i) * b.val ≤ 2 ^ (7 * i) * 1 := Nat.mul_le_mul_left _ hb1
              norm_num at hpow ⊢
              omega
            · have h1 : 2 ^ (7 * i) * b.val ≤ 2 ^ (7 * i) * 127 :=
                Nat.mul_le_mul_left _ (by omega)
              have h2 : (2 : Nat) ^ (7 * i) ≤ 2 ^ 56 :=
                Nat.pow_le_pow_right (by decide) (by omega)
              norm_num at h2 ⊢
              omega
          have hsh : b.val <<< (7 * i) % 2 ^ 64 = b.val <<< (7 * i) := by
            apply Nat.mod_eq_of_lt
            rw [Nat.shiftLeft_eq, Nat.mul_comm]
            exact hy.1
          rw [hsh, or_shiftLeft_eq_add x b.val (7 * i) hx, if_pos ⟨by omega, hy.2⟩]
          rfl
      · rw [if_neg hsmall, specUvarintFrom_cons i x b r hsmall]
        by_cases h9 : i = 9
        · subst h9
          rw [specUvarintFrom_ten]
          exact okValue_loop_ten _ _ _
        · have h1 : 2 ^ (7 * i) * (b.val % 128) ≤ 2 ^ (7 * i) * 127 :=
            Nat.mul_le_mul_left _ (by omega)
          have h2 : (2 : Nat) ^ (7 * i) ≤ 2 ^ 56 :=
            Nat.pow_le_pow_right (by decide) (by omega)
          have h3 : (2 : Nat) ^ (7 * (i + 1)) = 2 ^ (7 * i) * 128 := by
            rw [Nat.mul_add, Nat.pow_add]
          have hand : b.val &&& 0x7f = b.val % 128 := Nat.and_pow_two_sub_one_eq_mod b.val 7
          have hsh : (b.val % 128) <<< (7 * i) % 2 ^ 64 = (b.val % 128) <<< (7 * i) := by
            apply Nat.mod_eq_of_lt
            rw [Nat.shiftLeft_eq, Nat.mul_comm]
            norm_num at h2 ⊢
            omega
          rw [hand, hsh, or_shiftLeft_eq_add x (b.val % 128) (7 * i) hx]
          have hs : 7 * i + 7 = 7 * (i + 1) := by omega
          rw [hs]
          apply ih (i + 1) _ (by omega)
          rw [h3]
          omega

theorem specUvarintFrom_zero (d : List Byte) : specUvarintFrom 0 0 d = specUvarint d := by
  simp only [specUvarintFrom, specUvarint, Nat.mul_zero, Nat.pow_zero, Nat.one_mul,
    Nat.zero_add]

/-- The standard library reader succeeds exactly on the digests that begin with a valid
varint, and then returns its value. -/
theorem okValue_ReadUvarint (d : List Byte) : okValue (ReadUvarint d) = specUvarint d := by
  have h := okValue_loop d 0 0 (Nat.zero_le _) (by decide)
  rw [specUvarintFrom_zero] at h
  exact h

theorem okValue_eq_some {α : Type} (r : α × Option GoError) (a : α)
    (h : okValue r = some a) : r = (a, none) := by
  obtain ⟨v, e⟩ := r
  cases e with
  | none => simp only [okValue, Option.some.injEq] at h; rw [h]
  | some e => simp [okValue] at h

theorem okValue_eq_none {α : Type} (r : α × Option GoError) (h : okValue r = none) :
    r.2 ≠ none := by
  obtain ⟨v, e⟩ := r
  cases e with
  | none => simp [okValue] at h
  | some e => simp

theorem specUvarint_lt (d : List Byte) (u : Nat) (h : specUvarint d = some u) :
    u < 2 ^ 64 := by
  simp only [specUvarint] at h
  split at h
  · exact absurd h (by simp)
  · split at h
    · rename_i hc
      simp only [Option.some.injEq] at h
      rw [← h]
      exact hc.2
    · exact absurd h (by simp)

theorem complement_natCast (n : Nat) : ~~~(n : Int) = -(n : Int) - 1 := by
  show Int.negSucc n = _
  rw [Int.negSucc_eq]
  omega

/-- The zigzag step of `ReadVarint` on a 64-bit unsigned value. -/
theorem zigzag_eq_spec (u : Nat) (hu : u < 2 ^ 64) :
    (if u &&& 1 ≠ 0 then ~~~(wrapInt ((u >>> 1 : Nat) : Int))
      else wrapInt ((u >>> 1 : Nat) : Int)) = specZigzag u := by
  have hw : wrapInt ((u >>> 1 : Nat) : Int) = ((u / 2 : Nat) : Int) := by
    rw [Nat.shiftRight_eq_div_pow, Nat.pow_one]
    apply wrapInt_of_isInt
    simp only [isInt, minInt, maxInt]
    omega
  rw [hw, Nat.and_one_is_mod, complement_natCast]
  simp only [specZigzag]
  by_cases hp : u % 2 = 0
  · rw [if_neg (by omega), if_pos hp]
  · rw [if_pos hp, if_neg hp]
    omega

theorem ReadVarint_of_spec (d : List Byte) (u : Nat) (h : specUvarint d = some u) :
    ReadVarint d = (specZigzag u, none) := by
  have hr : ReadUvarint d = (u, none) :=
    okValue_eq_some _ _ ((okValue_ReadUvarint d).trans h)
  simp only [ReadVarint, hr]
  rw [zigzag_eq_spec u (specUvarint_lt d u h)]

theorem ReadVarint_of_spec_none (d : List Byte) (h : specUvarint d = none) :
    (ReadVarint d).2 ≠ none := by
  have hr : (ReadUvarint d).2 ≠ none :=
    okValue_eq_none _ ((okValue_ReadUvarint d).trans h)
  simpa only [ReadVarint] using hr

/-! ## What `CreateHash` computes on a string of at most one byte -/

theorem CreateHash_of_spec {σ : Type} (H : Hash σ) (h : σ) (s : List Byte)
    (bitset : List Bool) (hs : s.length ≤ 1) (u : Nat)
    (hd : specUvarint (H.Sum (H.Write h s) []) = some u) :
    CreateHash H h s bitset =
      { ret := { Idx := parseIdx (specZigzag u), Error := none },
        h := H.Write h s, bitset := bitset } := by
  simp only [CreateHash]
  rw [if_neg (by omega), ReadVarint_of_spec _ u hd]

theorem CreateHash_of_spec_none {σ : Type} (H : Hash σ) (h : σ) (s : List Byte)
    (bitset : List Bool) (hs : s.length ≤ 1)
    (hd : specUvarint (H.Sum (H.Write h s) []) = none) :
    ∃ err, CreateHash H h s bitset =
      { ret := { Idx := 0, Error := some err }, h := H.Write h s, bitset := bitset } := by
  have hne := ReadVarint_of_spec_none _ hd
  simp only [CreateHash]
  rw [if_neg (by omega)]
  generalize ReadVarint (H.Sum (H.Write h s) []) = rv at hne ⊢
  obtain ⟨v, e⟩ := rv
  cases e with
  | none => exact absurd rfl hne
  | some err => exact ⟨err, rfl⟩

/-! ## A digest is read only up to the end of its varint -/

theorem specVarintLen_le (v : List Byte) : ∀ n, specVarintLen v = some n → n ≤ v.length := by
  induction v with
  | nil => intro n h; simp [specVarintLen] at h
  | cons b r ih =>
    intro n h
    simp only [specVarintLen] at h
    split at h
    · simp only [Option.some.injEq] at h
      simp only [List.length_cons]
      omega
    · cases hr : specVarintLen r with
      | none => simp [hr] at h
      | some m =>
        have := ih m hr
        simp only [hr, Option.map_some', Option.some.injEq] at h
        simp only [List.length_cons]
        omega

theorem specVarintLen_append (v t : List Byte) :
    ∀ n, specVarintLen v = some n → specVarintLen (v ++ t) = some n := by
  induction v with
  | nil => intro n h; simp [specVarintLen] at h
  | cons b r ih =>
    intro n h
    simp only [specVarintLen, List.cons_append] at h ⊢
    split
    · rename_i hb
      rw [if_pos hb] at h
      exact h
    · rename_i hb
      rw [if_neg hb] at h
      cases hr : specVarintLen r with
      | none => simp [hr] at h
      | some m =>
        have hrt : specVarintLen (r.append t) = some m := ih m hr
        rw [hrt]
        rw [hr] at h
        exact h

theorem specUvarint_append (v t : List Byte) (u : Nat) (h : specUvarint v = some u) :
    specUvarint (v ++ t) = some u := by
  simp only [specUvarint] at h ⊢
  cases hv : specVarintLen v with
  | none => simp [hv] at h
  | some n =>
    rw [specVarintLen_append v t n hv]
    rw [hv] at h
    simp only at h ⊢
    rw [List.take_append_of_le_length (specVarintLen_le v n hv)]
    exact h

theorem specZigzag_range (u : Nat) (hu : u < 2 ^ 64) (hmax : u ≠ 2 ^ 64 - 1) :
    isInt (specZigzag u) ∧ specZigzag u ≠ minInt := by
  simp only [isInt, minInt, maxInt, specZigzag]
  split <;> omega

/-- Supporting result for the digest contract: on every digest that begins with a varint
of unsigned value `u` other than `2^64 - 1`, `CreateHash` returns no error and the absolute
value of the zigzag decoding of `u`, whatever bytes `t` follow the varint. -/
theorem CreateHash_idx_of_varint {σ : Type} (H : Hash σ) (h : σ) (s : List Byte)
    (bitset : List Bool) (hs : s.length ≤ 1) (v t : List Byte) (u : Nat)
    (hd : H.Sum (H.Write h s) [] = v ++ t) (hv : specUvarint v = some u)
    (hmax : u ≠ 2 ^ 64 - 1) :
    (CreateHash H h s bitset).ret =
      { Idx := ((specZigzag u).natAbs : Int), Error := none } := by
  have hu := specUvarint_lt v u hv
  have hspec : specUvarint (H.Sum (H.Write h s) []) = some u := by
    rw [hd]
    exact specUvarint_append v t u hv
  obtain ⟨hz, hne⟩ := specZigzag_range u hu hmax
  rw [CreateHash_of_spec H h s bitset hs u hspec, parseIdx_eq_natAbs _ hz hne]

/-- The digests that do not begin with a valid varint: no byte below `0x80` at all (the
empty digest included), or the first such byte is not among the first 10, or the payload
up to it is not below `2^64`. -/
theorem specUvarint_eq_none_iff (d : List Byte) :
    specUvarint d = none ↔
      specVarintLen d = none ∨
        ∃ n, specVarintLen d = some n ∧ (10 < n ∨ 2 ^ 64 ≤ specBase128 (d.take n)) := by
  simp only [specUvarint]
  cases specVarintLen d with
  | none => simp
  | some n =>
    simp only [Option.some.injEq, exists_eq_left', false_or, reduceCtorEq]
    by_cases hc : n ≤ 10 ∧ specBase128 (d.take n) < 2 ^ 64
    · rw [if_pos hc]
      simp only [reduceCtorEq, false_iff]
      omega
    · rw [if_neg hc]
      simp only [true_iff]
      omega

/-! ## The claims -/

/-- C1 (failing input): at the maximum int the length `idx+1` wraps to the minimum int and
`make` panics, so `AddToHash` does not complete, the storage is not resized and no later
`GetFromHash` returns true. -/
theorem AddToHash_maxInt_faults :
    0 ≤ maxInt ∧ isInt maxInt ∧ AddToHash maxInt [] = .error Panic.makesliceLen ∧
      ¬ ∃ bs, AddToHash maxInt [] = .ok bs ∧ GetFromHash maxInt bs = .ok true := by
  refine ⟨by decide, by decide, by decide, ?_⟩
  rintro ⟨bs, hadd, _⟩
  have hfault : AddToHash maxInt [] = .error Panic.makesliceLen := by decide
  rw [hfault] at hadd
  cases hadd

/-- The same panic from the first index whose storage exceeds `maxAlloc`: `AddToHash(1<<48)`
on the empty set and `AddToHash(-(1<<62))` on a one-flag set. -/
theorem AddToHash_maxAlloc_faults :
    AddToHash (2 ^ 48) [] = .error Panic.makesliceLen ∧
      AddToHashGlobal (2 ^ 48) [] = ([], some Panic.makesliceLen) ∧
      AddToHash (-(2 ^ 62)) [true] = .error Panic.makesliceLen ∧
      AddToHashGlobal (-(2 ^ 62)) [true] = ([true], some Panic.makesliceLen) := by
  decide

/-- Below the allocation limit the insertion works: for every state and every int `i` with
`0 <= i < maxAlloc`, `AddToHash(i)` completes and `GetFromHash(i)` then returns true. -/
theorem AddToHash_then_GetFromHash (bitset : List Bool) (i : Int) (h0 : 0 ≤ i)
    (h1 : i < maxAlloc) :
    ∃ bs, AddToHash i bitset = .ok bs ∧ GetFromHash i bs = .ok true :=
  ⟨grownSet i bitset, AddToHash_of_nonneg i bitset h0 h1, GetFromHash_grownSet_self i bitset h0⟩

/-- C2 (counterexample): `CreateHash` on the one-byte string "a" succeeds with index 1 and
leaves the membership set as it was, so `GetFromHash(1)` faults on the empty set and
returns false on a set whose flag 1 is clear. -/
theorem CreateHash_does_not_insert :
    (CreateHash (constHash [2]) [] [97] []).ret = { Idx := 1, Error := none } ∧
      GetFromHash 1 (CreateHash (constHash [2]) [] [97] []).bitset
        = .error Panic.indexOutOfRange ∧
      GetFromHash 1 (CreateHash (constHash [2]) [] [97] [false, false]).bitset
        = .ok false := by
  decide

/-- C2 (amended): the public entry point performs the digest derivation only.  For every
hash algorithm and every single-byte string, if `CreateHash` succeeds with index `k`, then
the digest begins with a valid varint of some unsigned value `u`, `k` is `parseIdx` of the
zigzag decoding of `u`, the membership set is the one before the call, and `GetFromHash(k)`
answers afterwards exactly as it did before the call. -/
theorem CreateHash_derives_only {σ : Type} (H : Hash σ) (h : σ) (s : List Byte)
    (bitset : List Bool) (hs : s.length = 1)
    (herr : (CreateHash H h s bitset).ret.Error = none) :
    (∃ u, specUvarint (H.Sum (H.Write h s) []) = some u ∧
        (CreateHash H h s bitset).ret.Idx = parseIdx (specZigzag u)) ∧
      (CreateHash H h s bitset).bitset = bitset ∧
      GetFromHash (CreateHash H h s bitset).ret.Idx (CreateHash H h s bitset).bitset
        = GetFromHash (CreateHash H h s bitset).ret.Idx bitset := by
  have hle : s.length ≤ 1 := by omega
  cases hd : specUvarint (H.Sum (H.Write h s) []) with
  | none =>
    obtain ⟨err, he⟩ := CreateHash_of_spec_none H h s bitset hle hd
    rw [he] at herr
    cases herr
  | some u =>
    rw [CreateHash_of_spec H h s bitset hle u hd]
    exact ⟨⟨u, rfl, rfl⟩, rfl, rfl⟩

/-- C2 (witness): the string "a" with a digest that decodes to index 1, on a set whose
flag 1 is clear: the flag is still clear after the call. -/
theorem CreateHash_derives_only_witness :
    (∃ u, specUvarint ((constHash [2]).Sum ((constHash [2]).Write [] [97]) []) = some u ∧
        (CreateHash (constHash [2]) [] [97] [false, false]).ret.Idx
          = parseIdx (specZigzag u)) ∧
      (CreateHash (constHash [2]) [] [97] [false, false]).bitset = [false, false] ∧
      GetFromHash (CreateHash (constHash [2]) [] [97] [false, false]).ret.Idx
          (CreateHash (constHash [2]) [] [97] [false, false]).bitset
        = GetFromHash (CreateHash (constHash [2]) [] [97] [false, false]).ret.Idx
          [false, false] :=
  CreateHash_derives_only (constHash [2]) [] [97] [false, false] (by decide) (by decide)

/-- C3: for every hash algorithm and every string of byte length 2 or more, `CreateHash`
returns a non-nil error (the one built at gobfs.go:50) with `Idx = 0`, and the membership
set is left as it was. -/
theorem CreateHash_rejects_long {σ : Type} (H : Hash σ) (h : σ) (s : List Byte)
    (bitset : List Bool) (hs : 2 ≤ s.length) :
    (CreateHash H h s bitset).ret.Error ≠ none ∧
      (CreateHash H h s bitset).ret.Error = some GoError.stringCantBeEmpty ∧
      (CreateHash H h s bitset).ret.Idx = 0 ∧
      (CreateHash H h s bitset).bitset = bitset := by
  have hgt : s.length > 1 := by omega
  have hcall : CreateHash H h s bitset =
      { ret := { Idx := 0, Error := some GoError.stringCantBeEmpty },
        h := h, bitset := bitset } := by
    simp only [CreateHash, if_pos hgt]
  rw [hcall]
  exact ⟨by simp, rfl, rfl, rfl⟩

/-- C3 (witness): the two-byte string "ab". -/
theorem CreateHash_rejects_long_witness :
    (CreateHash (constHash [2]) [] [97, 98] [true]).ret.Error ≠ none ∧
      (CreateHash (constHash [2]) [] [97, 98] [true]).ret.Error
        = some GoError.stringCantBeEmpty ∧
      (CreateHash (constHash [2]) [] [97, 98] [true]).ret.Idx = 0 ∧
      (CreateHash (constHash [2]) [] [97, 98] [true]).bitset = [true] :=
  CreateHash_rejects_long (constHash [2]) [] [97, 98] [true] (by decide)

/-- C4 (failing input): on the empty string and a hash whose digest is the SHA-256 digest
of the empty input, `CreateHash` returns `Error = nil` and index 69766194, although the
doc comment at gobfs.go:25 promises an error for the empty string. -/
theorem CreateHash_accepts_empty :
    (CreateHash (constHash sha256OfEmpty) [] [] []).ret
      = { Idx := 69766194, Error := none } := by
  decide

/-- C5 (failing input): the digest `ff ff ff ff ff ff ff ff ff 01` begins with the valid
varint of `u = 2^64 - 1`, whose zigzag decoding is `-2^63` with absolute value `2^63`;
`CreateHash` returns `Error = nil` and `Idx = -2^63`, not that absolute value. -/
theorem CreateHash_idx_at_max_uvarint :
    specUvarint maxUvarintBytes = some (2 ^ 64 - 1) ∧
      specZigzag (2 ^ 64 - 1) = -(2 ^ 63) ∧
      (CreateHash (constHash maxUvarintBytes) [] [97] []).ret
        = { Idx := -(2 ^ 63), Error := none } ∧
      (CreateHash (constHash maxUvarintBytes) [] [97] []).ret.Idx
        ≠ ((specZigzag (2 ^ 64 - 1)).natAbs : Int) := by
  decide

/-- C6: for every string of byte length at most 1, `CreateHash` returns a non-nil error if
and only if the digest does not begin with a valid varint (it ends before a byte below
`0x80`, or that byte is not among the first 10, or the value is not below `2^64`); in that
case `Idx = 0` and the membership set is left as it was. -/
theorem CreateHash_error_iff_no_varint {σ : Type} (H : Hash σ) (h : σ) (s : List Byte)
    (bitset : List Bool) (hs : s.length ≤ 1) :
    ((CreateHash H h s bitset).ret.Error ≠ none ↔
        specUvarint (H.Sum (H.Write h s) []) = none) ∧
      ((CreateHash H h s bitset).ret.Error ≠ none →
        (CreateHash H h s bitset).ret.Idx = 0 ∧ (CreateHash H h s bitset).bitset = bitset) := by
  cases hd : specUvarint (H.Sum (H.Write h s) []) with
  | none =>
    obtain ⟨err, he⟩ := CreateHash_of_spec_none H h s bitset hs hd
    rw [he]
    exact ⟨⟨fun _ => rfl, fun _ => by simp⟩, fun _ => ⟨rfl, rfl⟩⟩
  | some u =>
    rw [CreateHash_of_spec H h s bitset hs u hd]
    exact ⟨⟨fun hne => absurd rfl hne, fun hn => by simp at hn⟩, fun hne => absurd rfl hne⟩

/-- C6 (witness): the string "a" with the truncated digest `ff ff`. -/
theorem CreateHash_error_iff_no_varint_witness :
    ((CreateHash (constHash [0xff, 0xff]) [] [97] [true]).ret.Error ≠ none ↔
        specUvarint ((constHash [0xff, 0xff]).Sum ((constHash [0xff, 0xff]).Write [] [97]) [])
          = none) ∧
      ((CreateHash (constHash [0xff, 0xff]) [] [97] [true]).ret.Error ≠ none →
        (CreateHash (constHash [0xff, 0xff]) [] [97] [true]).ret.Idx = 0 ∧
          (CreateHash (constHash [0xff, 0xff]) [] [97] [true]).bitset = [true]) :=
  CreateHash_error_iff_no_varint (constHash [0xff, 0xff]) [] [97] [true] (by decide)

/-- C7 (failing input): on the one-byte string "a" and a hash whose digest is the varint
of the minimum int64, `CreateHash` returns `Error = nil` with a negative `Idx`. -/
theorem CreateHash_idx_negative :
    (CreateHash (constHash maxUvarintBytes) [] [97] []).ret.Error = none ∧
      (CreateHash (constHash maxUvarintBytes) [] [97] []).ret.Idx = minInt ∧
      (CreateHash (constHash maxUvarintBytes) [] [97] []).ret.Idx < 0 := by
  decide

/-- C8 (failing input): in every state of the membership set, `AddToHash` of the minimum
int panics with an index out of range at its write `bitset[idx]`. -/
theorem AddToHash_minInt_faults (bitset : List Bool) :
    AddToHash minInt bitset = .error Panic.indexOutOfRange := by
  have hlen := len_nonneg bitset
  have hidx : (if minInt < 0 then wrapInt (-minInt) else minInt) = minInt := by decide
  have hp : parseIdx minInt = minInt := by decide
  have hneg : minInt < 0 := by decide
  simp only [AddToHash, hidx, hp]
  rw [if_neg (by omega)]
  simp only [setIndex]
  rw [if_neg (by omega)]

/-- C9 (failing input): the minimum int is an `int`, and `parseIdx` maps it to itself, a
negative value. -/
theorem parseIdx_minInt_negative :
    isInt minInt ∧ parseIdx minInt = minInt ∧ parseIdx minInt < 0 := by
  decide

/-- C10: sign collision.  For every int `i`, `parseIdx(i)` equals `parseIdx(-i)`, the
negation being the wrap-around negation of the 64-bit `int`. -/
theorem parseIdx_neg_eq (i : Int) (h : isInt i) : parseIdx i = parseIdx (wrapInt (-i)) := by
  by_cases hmin : i = minInt
  · subst hmin
    rw [wrapInt_neg_minInt]
  · have hrange : isInt (-i) ∧ -i ≠ minInt := by
      simp only [isInt, minInt, maxInt] at h hmin ⊢
      omega
    rw [wrapInt_of_isInt _ hrange.1, parseIdx_eq_natAbs i h hmin,
      parseIdx_eq_natAbs (-i) hrange.1 hrange.2, Int.natAbs_neg]

/-- C10 (witness): the int `-5`, which collides with `5`. -/
theorem parseIdx_neg_eq_witness :
    isInt (-5) ∧ parseIdx (-5) = parseIdx (wrapInt (-(-5))) :=
  ⟨by decide, parseIdx_neg_eq (-5) (by decide)⟩

/-! ## The storage left by a completed `AddToHash` -/

/-- Every position of the storage that a completed `AddToHash` leaves. -/
theorem getElem?_grownSet (n : Int) (bitset : List Bool) (h0 : 0 ≤ n) (k : Nat) :
    (grownSet n bitset)[k]? =
      if k = n.toNat then some true
      else if k < bitset.length then bitset[k]?
      else if k < n.toNat then some false
      else none := by
  simp only [grownSet, len]
  by_cases hge : n ≥ (bitset.length : Int)
  · have hle : bitset.length ≤ n.toNat := by omega
    rw [if_pos hge, List.getElem?_set]
    by_cases hk : k = n.toNat
    · subst hk
      rw [if_pos rfl, if_pos rfl, if_pos]
      simp only [List.length_append, List.length_replicate]
      omega
    · rw [if_neg (Ne.symm hk), if_neg hk]
      by_cases hlt : k < bitset.length
      · rw [if_pos hlt, List.getElem?_append_left hlt]
      · rw [if_neg hlt, List.getElem?_append_right (by omega)]
        by_cases hkn : k < n.toNat
        · rw [if_pos hkn, List.getElem?_replicate, if_pos (by omega)]
        · rw [if_neg hkn, List.getElem?_replicate, if_neg (by omega)]
  · have hlt : n.toNat < bitset.length := by omega
    rw [if_neg hge, List.getElem?_set]
    by_cases hk : k = n.toNat
    · subst hk
      rw [if_pos rfl, if_pos rfl, if_pos hlt]
    · rw [if_neg (Ne.symm hk), if_neg hk]
      by_cases hkl : k < bitset.length
      · rw [if_pos hkl]
      · rw [if_neg hkl, if_neg (by omega)]
        exact List.getElem?_eq_none (by omega)

theorem length_grownSet_nat (n : Int) (bitset : List Bool) (h0 : 0 ≤ n) :
    (grownSet n bitset).length = max (n.toNat + 1) bitset.length := by
  have h := length_grownSet n bitset h0
  simp only [len] at h
  omega

/-! ## `AddToHashGlobal`: agreement with `AddToHash`, and what it leaves on every int -/

theorem AddToHash_eq_Global (i : Int) (bitset : List Bool) :
    AddToHash i bitset =
      match AddToHashGlobal i bitset with
      | (b, none) => .ok b
      | (_, some p) => .error p := by
  simp only [AddToHash, AddToHashGlobal]
  generalize (if i < 0 then wrapInt (-i) else i) = idx
  by_cases hge : parseIdx idx ≥ len bitset
  · rw [if_pos hge, if_pos hge]
    cases make (wrapInt (idx + 1)) with
    | error p => rfl
    | ok newBitset =>
      simp only
      cases setIndex (copy newBitset bitset) idx true <;> rfl
  · rw [if_neg hge, if_neg hge]
    cases setIndex bitset idx true <;> rfl

theorem negate_eq_natAbs (i : Int) (hi : isInt i) (hmin : i ≠ minInt) :
    (if i < 0 then wrapInt (-i) else i) = (i.natAbs : Int) := by
  simp only [isInt, minInt, maxInt] at hi hmin
  simp only [wrapInt]
  split <;> omega

theorem natAbs_le_maxInt (i : Int) (hi : isInt i) (hmin : i ≠ minInt) :
    (i.natAbs : Int) ≤ maxInt := by
  simp only [isInt, minInt, maxInt] at hi hmin ⊢
  omega

theorem AddToHashGlobal_minInt (bitset : List Bool) :
    AddToHashGlobal minInt bitset = (bitset, some Panic.indexOutOfRange) := by
  have hlen := len_nonneg bitset
  have hidx : (if minInt < 0 then wrapInt (-minInt) else minInt) = minInt := by decide
  have hp : parseIdx minInt = minInt := by decide
  have hneg : minInt < 0 := by decide
  simp only [AddToHashGlobal, hidx, hp]
  rw [if_neg (by omega)]
  simp only [setIndex]
  rw [if_neg (by omega)]

theorem make_wrapInt_succ_large (n : Int) (h1 : n ≤ maxInt) (hbig : maxAlloc ≤ n) :
    make (wrapInt (n + 1)) = .error Panic.makesliceLen := by
  simp only [make]
  rw [if_pos]
  simp only [wrapInt, maxAlloc, maxInt] at *
  omega

/-- What a call leaves on an int other than the minimum int, `n` being its absolute value:
a `makeslice` panic and the old storage when the storage has to grow to more than
`maxAlloc` flags, the grown storage otherwise. -/
theorem AddToHashGlobal_natAbs (n : Int) (bitset : List Bool) (h0 : 0 ≤ n) (h1 : n ≤ maxInt)
    (i : Int) (hi : (if i < 0 then wrapInt (-i) else i) = n) :
    AddToHashGlobal i bitset =
      if maxAlloc ≤ n ∧ len bitset ≤ n then (bitset, some Panic.makesliceLen)
      else (grownSet n bitset, none) := by
  have hlen := len_nonneg bitset
  simp only [AddToHashGlobal, hi, parseIdx_of_nonneg n h0]
  by_cases hge : n ≥ len bitset
  · rw [if_pos hge]
    by_cases hbig : maxAlloc ≤ n
    · rw [if_pos ⟨hbig, hge⟩, make_wrapInt_succ_large n h1 hbig]
    · rw [if_neg (fun h => hbig h.1)]
      have hw : wrapInt (n + 1) = n + 1 := by
        apply wrapInt_of_isInt
        simp only [isInt, minInt, maxInt, maxAlloc] at *
        omega
      have hnat : (n + 1).toNat = n.toNat + 1 := by omega
      have hle : bitset.length ≤ n.toNat + 1 := by
        simp only [len] at hge
        omega
      rw [hw, make_of_nonneg (n + 1) (by omega) (by omega)]
      simp only [hnat]
      rw [copy_replicate _ _ hle, setIndex_of_lt _ _ _ h0]
      · simp only [grownSet]
        rw [if_pos hge]
      · simp only [len, List.length_append, List.length_replicate]
        omega
  · rw [if_neg hge, if_neg (fun h => hge h.2), setIndex_of_lt _ _ _ h0 (by omega)]
    simp only [grownSet]
    rw [if_neg hge]

theorem AddToHashGlobal_eq (i : Int) (bitset : List Bool) (hi : isInt i) :
    AddToHashGlobal i bitset =
      if i = minInt then (bitset, some Panic.indexOutOfRange)
      else if maxAlloc ≤ (i.natAbs : Int) ∧ len bitset ≤ (i.natAbs : Int) then
        (bitset, some Panic.makesliceLen)
      else (grownSet (i.natAbs : Int) bitset, none) := by
  by_cases hmin : i = minInt
  · rw [if_pos hmin, hmin]
    exact AddToHashGlobal_minInt bitset
  · rw [if_neg hmin]
    exact AddToHashGlobal_natAbs _ bitset (Int.ofNat_nonneg _) (natAbs_le_maxInt i hi hmin) i
      (negate_eq_natAbs i hi hmin)

/-- On an int of absolute value below `maxAlloc`, `AddToHash` completes with the grown
storage. -/
theorem AddToHash_of_range (i : Int) (bitset : List Bool) (h0 : -maxAlloc < i)
    (h1 : i < maxAlloc) :
    AddToHash i bitset = .ok (grownSet (i.natAbs : Int) bitset) := by
  have hi : isInt i := by
    simp only [isInt, minInt, maxInt, maxAlloc] at *
    omega
  have hmin : i ≠ minInt := by
    simp only [minInt, maxAlloc] at *
    omega
  have hne : ¬ (maxAlloc ≤ (i.natAbs : Int) ∧ len bitset ≤ (i.natAbs : Int)) := by
    simp only [maxAlloc] at *
    omega
  rw [AddToHash_eq_Global, AddToHashGlobal_eq i bitset hi, if_neg hmin, if_neg hne]

theorem AddToHashGlobal_of_range (i : Int) (bitset : List Bool) (h0 : -maxAlloc < i)
    (h1 : i < maxAlloc) :
    AddToHashGlobal i bitset = (grownSet (i.natAbs : Int) bitset, none) := by
  have hi : isInt i := by
    simp only [isInt, minInt, maxInt, maxAlloc] at *
    omega
  have hmin : i ≠ minInt := by
    simp only [minInt, maxAlloc] at *
    omega
  have hne : ¬ (maxAlloc ≤ (i.natAbs : Int) ∧ len bitset ≤ (i.natAbs : Int)) := by
    simp only [maxAlloc] at *
    omega
  rw [AddToHashGlobal_eq i bitset hi, if_neg hmin, if_neg hne]

/-! ## Reading a flag -/

theorem GetFromHash_of_getElem? (k : Int) (bitset : List Bool) (b : Bool) (h0 : 0 ≤ k)
    (h : bitset[k.toNat]? = some b) : GetFromHash k bitset = .ok b := by
  have hlt : k.toNat < bitset.length := by
    rcases Nat.lt_or_ge k.toNat bitset.length with hl | hl
    · exact hl
    · rw [List.getElem?_eq_none hl] at h
      cases h
  simp only [GetFromHash, index, len]
  rw [if_pos ⟨h0, by omega⟩, List.getD_eq_getElem?_getD, h]
  rfl

theorem getElem?_of_GetFromHash (k : Int) (bitset : List Bool) (b : Bool)
    (h : GetFromHash k bitset = .ok b) : 0 ≤ k ∧ k < len bitset ∧ bitset[k.toNat]? = some b := by
  simp only [GetFromHash, index] at h
  by_cases hr : 0 ≤ k ∧ k < len bitset
  · rw [if_pos hr] at h
    simp only [Except.ok.injEq] at h
    refine ⟨hr.1, hr.2, ?_⟩
    have hlt : k.toNat < bitset.length := by
      have := hr.2
      simp only [len] at this
      omega
    rw [List.getD_eq_getElem?_getD, List.getElem?_eq_getElem hlt] at h
    rw [List.getElem?_eq_getElem hlt]
    simpa using h
  · rw [if_neg hr] at h
    cases h

theorem GetFromHash_error_iff (k : Int) (bitset : List Bool) :
    GetFromHash k bitset = .error Panic.indexOutOfRange ↔ k < 0 ∨ k ≥ len bitset := by
  simp only [GetFromHash, index]
  by_cases hr : 0 ≤ k ∧ k < len bitset
  · rw [if_pos hr]
    constructor
    · intro h
      cases h
    · intro h
      omega
  · rw [if_neg hr]
    constructor
    · intro _
      omega
    · intro _
      rfl

/-- Two storages of one length that agree at position `k` answer `GetFromHash(k)` alike. -/
theorem GetFromHash_congr (k : Int) (a b : List Bool) (hlen : a.length = b.length)
    (h : a[k.toNat]? = b[k.toNat]?) : GetFromHash k a = GetFromHash k b := by
  simp only [GetFromHash, index, len, hlen, List.getD_eq_getElem?_getD, h]

/-! ## Two insertions -/

theorem grownSet_comm (a b : Int) (bitset : List Bool) (ha : 0 ≤ a) (hb : 0 ≤ b) :
    grownSet a (grownSet b bitset) = grownSet b (grownSet a bitset) := by
  apply List.ext_getElem?
  intro k
  simp only [getElem?_grownSet _ _ ha, getElem?_grownSet _ _ hb, length_grownSet_nat _ _ ha,
    length_grownSet_nat _ _ hb]
  split_ifs <;> first | rfl | omega

theorem grownSet_idem (a : Int) (bitset : List Bool) (ha : 0 ≤ a) :
    grownSet a (grownSet a bitset) = grownSet a bitset := by
  apply List.ext_getElem?
  intro k
  simp only [getElem?_grownSet _ _ ha, length_grownSet_nat _ _ ha]
  split_ifs <;> first | rfl | omega

/-! ## Completed calls and sequences of calls -/

theorem AddToHash_ok_eq (i : Int) (bitset b : List Bool) (hi : isInt i)
    (h : AddToHash i bitset = .ok b) : b = grownSet (i.natAbs : Int) bitset := by
  rw [AddToHash_eq_Global, AddToHashGlobal_eq i bitset hi] at h
  by_cases hmin : i = minInt
  · rw [if_pos hmin] at h
    cases h
  · rw [if_neg hmin] at h
    by_cases hmax : maxAlloc ≤ (i.natAbs : Int) ∧ len bitset ≤ (i.natAbs : Int)
    · rw [if_pos hmax] at h
      cases h
    · rw [if_neg hmax] at h
      simp only [Except.ok.injEq] at h
      exact h.symm

theorem AddToHash_ok_of_Global (i : Int) (bitset b : List Bool)
    (h : AddToHash i bitset = .ok b) : (AddToHashGlobal i bitset).1 = b := by
  rw [AddToHash_eq_Global] at h
  rcases hg : AddToHashGlobal i bitset with ⟨g, _ | p⟩
  · rw [hg] at h
    simp only [Except.ok.injEq] at h
    exact h
  · rw [hg] at h
    cases h

/-- The storage that a call leaves is the old one or the grown one. -/
theorem AddToHashGlobal_cases (i : Int) (bitset : List Bool) (hi : isInt i) :
    (AddToHashGlobal i bitset).1 = bitset ∨
      (AddToHashGlobal i bitset).1 = grownSet (i.natAbs : Int) bitset := by
  rw [AddToHashGlobal_eq i bitset hi]
  split
  · exact Or.inl rfl
  · split
    · exact Or.inl rfl
    · exact Or.inr rfl

theorem GetFromHash_grownSet_of_true (n j : Int) (bitset : List Bool) (h0 : 0 ≤ n)
    (hj : GetFromHash j bitset = .ok true) : GetFromHash j (grownSet n bitset) = .ok true := by
  obtain ⟨hj0, hjlen, hget⟩ := getElem?_of_GetFromHash j bitset true hj
  apply GetFromHash_of_getElem? j _ true hj0
  rw [getElem?_grownSet n bitset h0]
  by_cases hk : j.toNat = n.toNat
  · rw [if_pos hk]
  · simp only [len] at hjlen
    rw [if_neg hk, if_pos (by omega), hget]

/-- The last position of a grown storage holds true when the old storage was empty or
ended in a true flag. -/
theorem grownSet_tight (n : Int) (bitset : List Bool) (h0 : 0 ≤ n)
    (ht : bitset = [] ∨ bitset[bitset.length - 1]? = some true) :
    (grownSet n bitset)[(grownSet n bitset).length - 1]? = some true := by
  rw [getElem?_grownSet n bitset h0, length_grownSet_nat n bitset h0]
  by_cases hk : max (n.toNat + 1) bitset.length - 1 = n.toNat
  · rw [if_pos hk]
  · have hlong : n.toNat + 1 < bitset.length := by omega
    have hne : bitset ≠ [] := by
      intro hnil
      rw [hnil] at hlong
      simp at hlong
    have hmax : max (n.toNat + 1) bitset.length - 1 = bitset.length - 1 := by omega
    rw [if_neg hk, hmax, if_pos (by omega)]
    rcases ht with ht | ht
    · exact absurd ht hne
    · exact ht

/-- What a completed sequence of calls does to the length and to the last flag. -/
theorem AddToHashAll_inv (calls : List Int) :
    ∀ start final : List Bool, (∀ i ∈ calls, isInt i) →
      AddToHashAll calls start = .ok final →
      start.length ≤ final.length ∧
        (∀ i ∈ calls, i.natAbs + 1 ≤ final.length) ∧
        (final.length = start.length ∨ ∃ i ∈ calls, final.length = i.natAbs + 1) ∧
        ((start = [] ∨ start[start.length - 1]? = some true) →
          (final = [] ∨ final[final.length - 1]? = some true)) := by
  induction calls with
  | nil =>
    intro start final _ h
    simp only [AddToHashAll, Except.ok.injEq] at h
    subst h
    exact ⟨Nat.le_refl _, by simp, Or.inl rfl, fun ht => ht⟩
  | cons i rest ih =>
    intro start final hint h
    simp only [AddToHashAll] at h
    cases h1 : AddToHash i start with
    | error p =>
      rw [h1] at h
      cases h
    | ok mid =>
      rw [h1] at h
      have hi : isInt i := hint i (List.mem_cons_self _ _)
      have hmid := AddToHash_ok_eq i start mid hi h1
      have hlen : mid.length = max (i.natAbs + 1) start.length := by
        rw [hmid, length_grownSet_nat _ _ (Int.ofNat_nonneg _), Int.toNat_natCast]
      obtain ⟨ha, hb, hc, hd⟩ :=
        ih mid final (fun k hk => hint k (List.mem_cons_of_mem _ hk)) h
      refine ⟨by omega, ?_, ?_, ?_⟩
      · intro k hk
        rcases List.mem_cons.mp hk with hk | hk
        · subst hk
          omega
        · exact hb k hk
      · rcases hc with hc | ⟨k, hk, hc⟩
        · rcases Nat.le_total (i.natAbs + 1) start.length with hle | hle
          · left
            omega
          · right
            exact ⟨i, List.mem_cons_self _ _, by omega⟩
        · right
          exact ⟨k, List.mem_cons_of_mem _ hk, hc⟩
      · intro ht
        apply hd
        right
        rw [hmid]
        exact grownSet_tight _ start (Int.ofNat_nonneg _) ht

/-! ## The claims, continued -/

/-- C11 (failing input): at `n = maxInt` the call `AddToHash(-n)` negates to the maximum
int, the length `idx+1` wraps and `make` panics, so no `GetFromHash(n)` returns true. -/
theorem AddToHash_neg_maxInt_faults :
    (0 : Int) < maxInt ∧ isInt maxInt ∧
      AddToHash (-maxInt) [] = .error Panic.makesliceLen ∧
      ¬ ∃ bs, AddToHash (-maxInt) [] = .ok bs ∧ GetFromHash maxInt bs = .ok true := by
  refine ⟨by decide, by decide, by decide, ?_⟩
  rintro ⟨bs, hadd, _⟩
  have hfault : AddToHash (-maxInt) [] = .error Panic.makesliceLen := by decide
  rw [hfault] at hadd
  cases hadd

/-- Negative indices below the allocation limit: for every state and every positive int
`n`, `AddToHash(-n)` has the outcome of `AddToHash(n)`; when `n < maxAlloc` both complete
with the same state and `GetFromHash(n)` then returns true. -/
theorem AddToHash_neg_eq (bitset : List Bool) (n : Int) (h0 : 0 < n) (h1 : n ≤ maxInt) :
    AddToHash (-n) bitset = AddToHash n bitset ∧
      (n < maxAlloc →
        ∃ bs, AddToHash (-n) bitset = .ok bs ∧ GetFromHash n bs = .ok true ∧
          AddToHash n bitset = .ok bs) := by
  have hneg : (if -n < 0 then wrapInt (- -n) else -n) = n := by
    rw [if_pos (by omega), Int.neg_neg]
    apply wrapInt_of_isInt
    simp only [isInt, minInt, maxInt] at *
    omega
  have hpos : (if n < 0 then wrapInt (-n) else n) = n := if_neg (by omega)
  have heq : AddToHash (-n) bitset = AddToHash n bitset := by
    rw [AddToHash_eq_Global, AddToHash_eq_Global,
      AddToHashGlobal_natAbs n bitset (by omega) h1 (-n) hneg,
      AddToHashGlobal_natAbs n bitset (by omega) h1 n hpos]
  refine ⟨heq, fun hlt => ⟨grownSet n bitset, ?_, ?_, ?_⟩⟩
  · rw [heq]
    exact AddToHash_of_nonneg n bitset (by omega) hlt
  · exact GetFromHash_grownSet_self n bitset (by omega)
  · exact AddToHash_of_nonneg n bitset (by omega) hlt

/-- The instance `n = 5` on the empty set. -/
theorem AddToHash_neg_eq_witness :
    AddToHash (-5) [] = AddToHash 5 [] ∧
      ∃ bs, AddToHash (-5) [] = .ok bs ∧ GetFromHash 5 bs = .ok true ∧
        AddToHash 5 [] = .ok bs :=
  ⟨(AddToHash_neg_eq [] 5 (by decide) (by decide)).1,
    (AddToHash_neg_eq [] 5 (by decide) (by decide)).2 (by decide)⟩

/-- C12: flags only accumulate.  For every state, every int `i` and every position `j`
whose flag is true before `AddToHash(i)`, position `j` is within bounds and true in the
storage the call leaves (grown or not, completed or left by a panic), and in the storage
a completed call returns. -/
theorem flags_kept (bitset : List Bool) (i j : Int) (hi : isInt i)
    (hj : GetFromHash j bitset = .ok true) :
    GetFromHash j (AddToHashGlobal i bitset).1 = .ok true ∧
      ∀ b, AddToHash i bitset = .ok b → GetFromHash j b = .ok true := by
  have hleft : GetFromHash j (AddToHashGlobal i bitset).1 = .ok true := by
    rcases AddToHashGlobal_cases i bitset hi with h | h
    · rw [h]
      exact hj
    · rw [h]
      exact GetFromHash_grownSet_of_true _ j bitset (Int.ofNat_nonneg _) hj
  refine ⟨hleft, fun b hb => ?_⟩
  rw [← AddToHash_ok_of_Global i bitset b hb]
  exact hleft

/-- C12 (witness): flag 1 of a two-flag set survives the growing call `AddToHash(4)`. -/
theorem flags_kept_witness :
    GetFromHash 1 (AddToHashGlobal 4 [false, true]).1 = .ok true ∧
      ∀ b, AddToHash 4 [false, true] = .ok b → GetFromHash 1 b = .ok true :=
  flags_kept [false, true] 4 1 (by decide) (by decide)

/-- C13 (failing input): `AddToHash` of the maximum int on the empty set panics in `make`
and leaves the empty storage, whose length does not exceed the index. -/
theorem AddToHash_maxInt_length :
    isInt maxInt ∧ AddToHashGlobal maxInt [] = ([], some Panic.makesliceLen) ∧
      ¬ len (AddToHashGlobal maxInt []).1 > (maxInt.natAbs : Int) ∧
      ¬ ∃ b, AddToHash maxInt [] = .ok b ∧ len b > (maxInt.natAbs : Int) := by
  refine ⟨by decide, by decide, by decide, ?_⟩
  rintro ⟨b, hadd, _⟩
  have hfault : AddToHash maxInt [] = .error Panic.makesliceLen := by decide
  rw [hfault] at hadd
  cases hadd

/-- Lengths below the allocation limit: every call `AddToHash(i)` leaves a storage at least
as long as before; for `-maxAlloc < i < maxAlloc` the call completes and leaves
`len(bitset) > |i|`; and in every state reached from the empty set by completed calls the
length is at least every inserted index plus one. -/
theorem length_covers (bitset : List Bool) (i : Int) (calls : List Int) (final : List Bool) :
    (isInt i → len (AddToHashGlobal i bitset).1 ≥ len bitset) ∧
      (-maxAlloc < i → i < maxAlloc →
        ∃ b, AddToHash i bitset = .ok b ∧ len b > (i.natAbs : Int) ∧ len b ≥ len bitset) ∧
      ((∀ k ∈ calls, isInt k) → AddToHashAll calls [] = .ok final →
        ∀ k ∈ calls, len final ≥ (k.natAbs : Int) + 1) := by
  refine ⟨fun hi => ?_, fun h0 h1 => ?_, fun hint hrun k hk => ?_⟩
  · rcases AddToHashGlobal_cases i bitset hi with h | h
    · exact Int.le_of_eq (congrArg len h.symm)
    · rw [h, length_grownSet _ _ (Int.ofNat_nonneg _)]
      omega
  · refine ⟨_, AddToHash_of_range i bitset h0 h1, ?_, ?_⟩
    · rw [length_grownSet _ _ (Int.ofNat_nonneg _)]
      omega
    · rw [length_grownSet _ _ (Int.ofNat_nonneg _)]
      omega
  · have := (AddToHashAll_inv calls [] final hint hrun).2.1 k hk
    simp only [len]
    omega

/-- The instance `AddToHash(-3)` on a one-flag set, and the run `2, -7, 4`. -/
theorem length_covers_witness :
    len (AddToHashGlobal (-3) [true]).1 ≥ len [true] ∧
      (∃ b, AddToHash (-3) [true] = .ok b ∧ len b > ((-3 : Int).natAbs : Int) ∧
        len b ≥ len [true]) ∧
      ∀ k ∈ [2, -7, 4], len (grownSet 4 (grownSet 7 (grownSet 2 []))) ≥ (k.natAbs : Int) + 1 :=
  ⟨(length_covers [true] (-3) [2, -7, 4] (grownSet 4 (grownSet 7 (grownSet 2 [])))).1
      (by decide),
    (length_covers [true] (-3) [2, -7, 4] (grownSet 4 (grownSet 7 (grownSet 2 [])))).2.1
      (by decide) (by decide),
    (length_covers [true] (-3) [2, -7, 4] (grownSet 4 (grownSet 7 (grownSet 2 [])))).2.2
      (by decide) (by decide)⟩

/-- C14 (failing input): `AddToHash` of the maximum int on the empty set has
`n = |i| >= len(bitset)`, yet it panics in `make` and leaves the empty storage: the length
is not `n + 1` and position `n` is not true. -/
theorem AddToHash_maxInt_no_flag :
    isInt maxInt ∧ (maxInt.natAbs : Int) ≥ len [] ∧
      AddToHashGlobal maxInt [] = ([], some Panic.makesliceLen) ∧
      len (AddToHashGlobal maxInt []).1 ≠ (maxInt.natAbs : Int) + 1 ∧
      GetFromHash (maxInt.natAbs : Int) (AddToHashGlobal maxInt []).1
        = .error Panic.indexOutOfRange := by
  decide

/-- One flag below the allocation limit: for `-maxAlloc < i < maxAlloc` and `n = |i|`,
`AddToHash(i)` completes and changes exactly one flag.  If `n >= len(bitset)` the new storage has length `n + 1`, every
old position keeps its value and every new position other than `n` is false; if
`n < len(bitset)` the length is unchanged and every position other than `n` keeps its
value.  In both cases position `n` is true. -/
theorem AddToHash_one_flag (bitset : List Bool) (i : Int) (h0 : -maxAlloc < i)
    (h1 : i < maxAlloc) :
    ∃ b, AddToHash i bitset = .ok b ∧
      GetFromHash (i.natAbs : Int) b = .ok true ∧
      ((i.natAbs : Int) ≥ len bitset →
        len b = (i.natAbs : Int) + 1 ∧
          (∀ k, 0 ≤ k → k < len bitset → GetFromHash k b = GetFromHash k bitset) ∧
          (∀ k, len bitset ≤ k → k < len b → k ≠ (i.natAbs : Int) →
            GetFromHash k b = .ok false)) ∧
      ((i.natAbs : Int) < len bitset →
        len b = len bitset ∧
          ∀ k, k ≠ (i.natAbs : Int) → GetFromHash k b = GetFromHash k bitset) := by
  have hn : (0 : Int) ≤ (i.natAbs : Int) := Int.ofNat_nonneg _
  have hlenb := length_grownSet (i.natAbs : Int) bitset hn
  refine ⟨grownSet (i.natAbs : Int) bitset, AddToHash_of_range i bitset h0 h1,
    GetFromHash_grownSet_self _ bitset hn, fun hge => ⟨?_, ?_, ?_⟩, fun hlt => ⟨?_, ?_⟩⟩
  · rw [hlenb]
    omega
  · intro k hk0 hklen
    simp only [len] at hklen hge
    have hkl : k.toNat < bitset.length := by omega
    have hold : bitset[k.toNat]? = some bitset[k.toNat] := List.getElem?_eq_getElem hkl
    rw [GetFromHash_of_getElem? k bitset _ hk0 hold]
    apply GetFromHash_of_getElem? k _ _ hk0
    rw [getElem?_grownSet _ _ hn, if_neg (by omega), if_pos hkl, hold]
  · intro k hkge hklt hkne
    rw [hlenb] at hklt
    simp only [len] at hkge hge hklt
    apply GetFromHash_of_getElem? k _ _ (by omega)
    rw [getElem?_grownSet _ _ hn, if_neg (by omega), if_neg (by omega), if_pos (by omega)]
  · rw [hlenb]
    omega
  · intro k hkne
    by_cases hk0 : k < 0
    · rw [(GetFromHash_error_iff k _).mpr (Or.inl hk0),
        (GetFromHash_error_iff k _).mpr (Or.inl hk0)]
    · apply GetFromHash_congr
      · have := length_grownSet_nat (i.natAbs : Int) bitset hn
        simp only [len] at hlt
        omega
      · rw [getElem?_grownSet _ _ hn, if_neg (by omega)]
        by_cases hkl : k.toNat < bitset.length
        · rw [if_pos hkl]
        · simp only [len] at hlt
          rw [if_neg hkl, if_neg (by omega)]
          exact (List.getElem?_eq_none (by omega)).symm

/-- The instance of the growing call `AddToHash(-3)` on the one-flag set. -/
theorem AddToHash_one_flag_witness :
    ∃ b, AddToHash (-3) [true] = .ok b ∧
      GetFromHash ((-3 : Int).natAbs : Int) b = .ok true ∧
      (((-3 : Int).natAbs : Int) ≥ len [true] →
        len b = ((-3 : Int).natAbs : Int) + 1 ∧
          (∀ k, 0 ≤ k → k < len [true] → GetFromHash k b = GetFromHash k [true]) ∧
          (∀ k, len [true] ≤ k → k < len b → k ≠ ((-3 : Int).natAbs : Int) →
            GetFromHash k b = .ok false)) ∧
      (((-3 : Int).natAbs : Int) < len [true] →
        len b = len [true] ∧
          ∀ k, k ≠ ((-3 : Int).natAbs : Int) → GetFromHash k b = GetFromHash k [true]) :=
  AddToHash_one_flag [true] (-3) (by decide) (by decide)

/-- C15: `CreateHash` has no effect on the membership set.  For every hash algorithm, every
string and every state, the set after the call is the set before; the hash instance of the
caller has absorbed the bytes of `s` when `len(s) <= 1` and nothing when `len(s) > 1`. -/
theorem CreateHash_frame {σ : Type} (H : Hash σ) (h : σ) (s : List Byte)
    (bitset : List Bool) :
    (CreateHash H h s bitset).bitset = bitset ∧
      (s.length ≤ 1 → (CreateHash H h s bitset).h = H.Write h s) ∧
      (s.length > 1 → (CreateHash H h s bitset).h = h) := by
  by_cases hs : s.length > 1
  · have hcall : CreateHash H h s bitset =
        { ret := { Idx := 0, Error := some GoError.stringCantBeEmpty },
          h := h, bitset := bitset } := by
      simp only [CreateHash, if_pos hs]
    rw [hcall]
    exact ⟨rfl, fun hle => absurd hs (by omega), fun _ => rfl⟩
  · have hcall : (CreateHash H h s bitset).bitset = bitset ∧
        (CreateHash H h s bitset).h = H.Write h s := by
      simp only [CreateHash, if_neg hs]
      split <;> exact ⟨rfl, rfl⟩
    exact ⟨hcall.1, fun _ => hcall.2, fun hgt => absurd hgt hs⟩

/-- C15 (witness): the strings "a" and "ab" on a hash that records what it absorbs. -/
theorem CreateHash_frame_witness :
    ((CreateHash (constHash [2]) [7] [97] [true]).bitset = [true] ∧
        (CreateHash (constHash [2]) [7] [97] [true]).h = [7, 97]) ∧
      ((CreateHash (constHash [2]) [7] [97, 98] [true]).bitset = [true] ∧
        (CreateHash (constHash [2]) [7] [97, 98] [true]).h = [7]) :=
  ⟨⟨(CreateHash_frame (constHash [2]) [7] [97] [true]).1,
      (CreateHash_frame (constHash [2]) [7] [97] [true]).2.1 (by decide)⟩,
    ⟨(CreateHash_frame (constHash [2]) [7] [97, 98] [true]).1,
      (CreateHash_frame (constHash [2]) [7] [97, 98] [true]).2.2 (by decide)⟩⟩

/-- C16: `GetFromHash(idx)` faults if and only if `idx < 0` or `idx >= len(bitset)`; for
`0 <= idx < len(bitset)` it returns the stored flag; and it leaves the set as it was. -/
theorem GetFromHash_contract (idx : Int) (bitset : List Bool) :
    ((∃ p, GetFromHash idx bitset = .error p) ↔ idx < 0 ∨ idx ≥ len bitset) ∧
      (0 ≤ idx → idx < len bitset →
        ∃ flag, bitset[idx.toNat]? = some flag ∧ GetFromHash idx bitset = .ok flag) ∧
      (GetFromHashGlobal idx bitset).1 = bitset ∧
      (GetFromHashGlobal idx bitset).2 = GetFromHash idx bitset := by
  refine ⟨⟨?_, ?_⟩, ?_, rfl, rfl⟩
  · rintro ⟨p, hp⟩
    by_cases hr : 0 ≤ idx ∧ idx < len bitset
    · simp only [GetFromHash, index, if_pos hr] at hp
      cases hp
    · omega
  · intro h
    exact ⟨Panic.indexOutOfRange, (GetFromHash_error_iff idx bitset).mpr h⟩
  · intro h0 h1
    have hlt : idx.toNat < bitset.length := by
      simp only [len] at h1
      omega
    have hget : bitset[idx.toNat]? = some bitset[idx.toNat] := List.getElem?_eq_getElem hlt
    exact ⟨_, hget, GetFromHash_of_getElem? idx bitset _ h0 hget⟩

/-- C16 (witness): position 1 of a three-flag set. -/
theorem GetFromHash_contract_witness :
    ∃ flag, [false, true, false][(1 : Int).toNat]? = some flag ∧
      GetFromHash 1 [false, true, false] = .ok flag :=
  (GetFromHash_contract 1 [false, true, false]).2.1 (by decide) (by decide)

/-! ## Every call, completed or not: the flags of the storage it leaves -/

/-- One call on a slice that `make` can have built (at most `maxAlloc` flags): the storage
it leaves is no shorter, is still such a slice, and holds true exactly at the old true
positions and at `|i|` when that is within the new bounds. -/
theorem AddToHashGlobal_step (i : Int) (start : List Bool) (hi : isInt i)
    (hlen : len start ≤ maxAlloc) :
    start.length ≤ (AddToHashGlobal i start).1.length ∧
      len (AddToHashGlobal i start).1 ≤ maxAlloc ∧
      (i.natAbs < (AddToHashGlobal i start).1.length ∨ maxAlloc ≤ (i.natAbs : Int)) ∧
      ∀ k : Nat, (AddToHashGlobal i start).1[k]? = some true ↔
        (start[k]? = some true ∨ (k < (AddToHashGlobal i start).1.length ∧ i.natAbs = k)) := by
  have hstart : ∀ k : Nat, start[k]? = some true → k < start.length := by
    intro k hk
    rcases Nat.lt_or_ge k start.length with hl | hl
    · exact hl
    · rw [List.getElem?_eq_none hl] at hk
      cases hk
  rw [AddToHashGlobal_eq i start hi]
  by_cases hmin : i = minInt
  · rw [if_pos hmin]
    simp only [len] at hlen ⊢
    have habs : maxAlloc < (i.natAbs : Int) := by
      rw [hmin]
      decide
    refine ⟨Nat.le_refl _, hlen, Or.inr (by omega), fun k => ⟨fun h => Or.inl h, ?_⟩⟩
    rintro (h | ⟨hk, hik⟩)
    · exact h
    · omega
  · rw [if_neg hmin]
    have hle := natAbs_le_maxInt i hi hmin
    by_cases hmax : maxAlloc ≤ (i.natAbs : Int) ∧ len start ≤ (i.natAbs : Int)
    · rw [if_pos hmax]
      simp only [len] at hlen hmax ⊢
      refine ⟨Nat.le_refl _, hlen, Or.inr hmax.1, fun k => ⟨fun h => Or.inl h, ?_⟩⟩
      rintro (h | ⟨hk, hik⟩)
      · exact h
      · omega
    · rw [if_neg hmax]
      have hn : (0 : Int) ≤ (i.natAbs : Int) := Int.ofNat_nonneg _
      have hlg := length_grownSet_nat (i.natAbs : Int) start hn
      rw [Int.toNat_natCast] at hlg
      simp only [len] at hlen hmax ⊢
      refine ⟨by omega, by omega, Or.inl (by omega), fun k => ?_⟩
      rw [getElem?_grownSet _ _ hn, Int.toNat_natCast]
      by_cases hk : k = i.natAbs
      · rw [if_pos hk]
        exact ⟨fun _ => Or.inr ⟨by omega, hk.symm⟩, fun _ => rfl⟩
      · rw [if_neg hk]
        by_cases hkl : k < start.length
        · rw [if_pos hkl]
          exact ⟨fun h => Or.inl h, fun h => h.elim id (fun h2 => absurd h2.2.symm hk)⟩
        · rw [if_neg hkl]
          constructor
          · intro h
            split at h <;> cases h
          · rintro (h | ⟨_, h⟩)
            · exact absurd (hstart k h) hkl
            · exact absurd h.symm hk

/-- A sequence of calls on a slice of at most `maxAlloc` flags, each completed or not. -/
theorem AddToHashSeq_inv (calls : List Int) :
    ∀ start : List Bool, (∀ i ∈ calls, isInt i) → len start ≤ maxAlloc →
      start.length ≤ (AddToHashSeq calls start).length ∧
        len (AddToHashSeq calls start) ≤ maxAlloc ∧
        ∀ k : Nat, (AddToHashSeq calls start)[k]? = some true ↔
          (start[k]? = some true ∨
            (k < (AddToHashSeq calls start).length ∧ ∃ i ∈ calls, i.natAbs = k)) := by
  induction calls with
  | nil =>
    intro start _ hlen
    simp only [AddToHashSeq]
    refine ⟨Nat.le_refl _, hlen, fun k => ⟨fun h => Or.inl h, ?_⟩⟩
    rintro (h | ⟨_, i, hi, _⟩)
    · exact h
    · cases hi
  | cons i rest ih =>
    intro start hint hlen
    have hi : isInt i := hint i (List.mem_cons_self _ _)
    obtain ⟨s1, s2, s3, s4⟩ := AddToHashGlobal_step i start hi hlen
    obtain ⟨r1, r2, r3⟩ :=
      ih (AddToHashGlobal i start).1 (fun k hk => hint k (List.mem_cons_of_mem _ hk)) s2
    simp only [AddToHashSeq]
    refine ⟨by omega, r2, fun k => ?_⟩
    rw [r3 k, s4 k]
    constructor
    · rintro ((h | ⟨hk, hik⟩) | ⟨hk, j, hj, hjk⟩)
      · exact Or.inl h
      · exact Or.inr ⟨by omega, i, List.mem_cons_self _ _, hik⟩
      · exact Or.inr ⟨hk, j, List.mem_cons_of_mem _ hj, hjk⟩
    · rintro (h | ⟨hk, j, hj, hjk⟩)
      · exact Or.inl (Or.inl h)
      · rcases List.mem_cons.mp hj with hji | hjr
        · subst hji
          left
          right
          refine ⟨?_, hjk⟩
          simp only [len] at r2
          omega
        · exact Or.inr ⟨hk, j, hjr, hjk⟩

/-- A sequence of calls that all complete leaves the state it returns. -/
theorem AddToHashSeq_of_All (calls : List Int) :
    ∀ start final : List Bool, AddToHashAll calls start = .ok final →
      AddToHashSeq calls start = final := by
  induction calls with
  | nil =>
    intro start final h
    simp only [AddToHashAll, Except.ok.injEq] at h
    exact h
  | cons i rest ih =>
    intro start final h
    simp only [AddToHashAll] at h
    cases h1 : AddToHash i start with
    | error p =>
      rw [h1] at h
      cases h
    | ok mid =>
      rw [h1] at h
      simp only [AddToHashSeq]
      rw [AddToHash_ok_of_Global i start mid h1]
      exact ih mid final h

/-- The storage a call leaves: the old one when the call panics (the minimum int, or a
growth to more than `maxAlloc` flags), the grown one otherwise. -/
theorem AddToHashGlobal_fst (i : Int) (bitset : List Bool) (hi : isInt i) :
    (AddToHashGlobal i bitset).1 =
      if i = minInt ∨ (maxAlloc ≤ (i.natAbs : Int) ∧ len bitset ≤ (i.natAbs : Int)) then bitset
      else grownSet (i.natAbs : Int) bitset := by
  rw [AddToHashGlobal_eq i bitset hi]
  by_cases hmin : i = minInt
  · rw [if_pos hmin, if_pos (Or.inl hmin)]
  · rw [if_neg hmin]
    by_cases hmax : maxAlloc ≤ (i.natAbs : Int) ∧ len bitset ≤ (i.natAbs : Int)
    · rw [if_pos hmax, if_pos (Or.inr hmax)]
    · rw [if_neg hmax, if_neg (fun h => h.elim hmin hmax)]

/-- A completed call of `j` does not change whether a call of `i` panics. -/
theorem panics_after_grown (i j : Int) (bitset : List Bool) (hj : isInt j)
    (hnj : ¬ (j = minInt ∨ (maxAlloc ≤ (j.natAbs : Int) ∧ len bitset ≤ (j.natAbs : Int)))) :
    (i = minInt ∨ (maxAlloc ≤ (i.natAbs : Int) ∧
        len (grownSet (j.natAbs : Int) bitset) ≤ (i.natAbs : Int)))
      ↔ (i = minInt ∨ (maxAlloc ≤ (i.natAbs : Int) ∧ len bitset ≤ (i.natAbs : Int))) := by
  rw [length_grownSet _ _ (Int.ofNat_nonneg _)]
  have hlen := len_nonneg bitset
  simp only [isInt, minInt, maxInt] at *
  omega

theorem AddToHash_above_minInt (i : Int) (bitset : List Bool) (hi : isInt i)
    (hmin : minInt < i) :
    AddToHash i bitset =
      if maxAlloc ≤ (i.natAbs : Int) ∧ len bitset ≤ (i.natAbs : Int) then .error Panic.makesliceLen
      else .ok (grownSet (i.natAbs : Int) bitset) := by
  rw [AddToHash_eq_Global, AddToHashGlobal_eq i bitset hi, if_neg (by omega)]
  by_cases hmax : maxAlloc ≤ (i.natAbs : Int) ∧ len bitset ≤ (i.natAbs : Int)
  · rw [if_pos hmax, if_pos hmax]
  · rw [if_neg hmax, if_neg hmax]

/-- A sequence of calls on ints strictly between `-maxAlloc` and `maxAlloc` completes, from
every state. -/
theorem AddToHashAll_completes (calls : List Int) :
    ∀ start : List Bool, (∀ i ∈ calls, -maxAlloc < i ∧ i < maxAlloc) →
      ∃ final, AddToHashAll calls start = .ok final := by
  induction calls with
  | nil =>
    intro start _
    exact ⟨start, rfl⟩
  | cons i rest ih =>
    intro start hrange
    obtain ⟨h0, h1⟩ := hrange i (List.mem_cons_self _ _)
    obtain ⟨final, hfinal⟩ :=
      ih (grownSet (i.natAbs : Int) start) (fun k hk => hrange k (List.mem_cons_of_mem _ hk))
    refine ⟨final, ?_⟩
    simp only [AddToHashAll]
    rw [AddToHash_of_range i start h0 h1]
    exact hfinal

/-- C17: starting from the empty membership set, after any finite sequence of calls
`AddToHash(i_1), ..., AddToHash(i_m)` on ints, for every `j` with `0 <= j < len(bitset)`,
`GetFromHash(j)` is true if and only if `j = |i_k|` for some `k`.  The state is the one
the calls leave; it is the returned state when every call completes. -/
theorem membership_exact (calls : List Int) (hint : ∀ i ∈ calls, isInt i) :
    (∀ final, AddToHashAll calls [] = .ok final → AddToHashSeq calls [] = final) ∧
      ∀ j : Int, 0 ≤ j → j < len (AddToHashSeq calls []) →
        (GetFromHash j (AddToHashSeq calls []) = .ok true ↔
          ∃ i ∈ calls, j = (i.natAbs : Int)) := by
  refine ⟨fun final h => AddToHashSeq_of_All calls [] final h, fun j h0 h1 => ?_⟩
  obtain ⟨_, _, hflags⟩ := AddToHashSeq_inv calls [] hint (by decide)
  simp only [len] at h1
  constructor
  · intro h
    obtain ⟨_, _, hget⟩ := getElem?_of_GetFromHash j _ true h
    rcases (hflags j.toNat).mp hget with hnil | ⟨_, i, hi, hik⟩
    · simp at hnil
    · exact ⟨i, hi, by omega⟩
  · rintro ⟨i, hi, hji⟩
    apply GetFromHash_of_getElem? j _ true h0
    exact (hflags j.toNat).mpr (Or.inr ⟨by omega, i, hi, by omega⟩)

/-- C17 (witness): the run `3, -1, 3` from the empty set, read at position 1. -/
theorem membership_exact_witness :
    (∀ final, AddToHashAll [3, -1, 3] [] = .ok final → AddToHashSeq [3, -1, 3] [] = final) ∧
      ∀ j : Int, 0 ≤ j → j < len (AddToHashSeq [3, -1, 3] []) →
        (GetFromHash j (AddToHashSeq [3, -1, 3] []) = .ok true ↔
          ∃ i ∈ [3, -1, 3], j = (i.natAbs : Int)) :=
  membership_exact [3, -1, 3] (by decide)

/-- C18 (failing input): on the empty set, after one call and after two calls of
`AddToHash` with the maximum int, `GetFromHash(|i|)` faults; it is never true. -/
theorem AddToHash_twice_maxInt :
    isInt maxInt ∧
      GetFromHash (maxInt.natAbs : Int) (AddToHashGlobal maxInt []).1
        = .error Panic.indexOutOfRange ∧
      GetFromHash (maxInt.natAbs : Int)
          (AddToHashGlobal maxInt (AddToHashGlobal maxInt []).1).1
        = .error Panic.indexOutOfRange := by
  decide

/-- Idempotence: for every state and every int `i`, calling `AddToHash(i)` twice leaves
the membership set (and the outcome) of calling it once; for `-maxAlloc < i < maxAlloc`,
`GetFromHash(|i|)` is true after the first call and still true after the second. -/
theorem AddToHash_twice (bitset : List Bool) (i : Int) (hi : isInt i) :
    AddToHashGlobal i (AddToHashGlobal i bitset).1 = AddToHashGlobal i bitset ∧
      AddToHashAll [i, i] bitset = AddToHash i bitset ∧
      (-maxAlloc < i → i < maxAlloc →
        GetFromHash (i.natAbs : Int) (AddToHashGlobal i bitset).1 = .ok true ∧
          GetFromHash (i.natAbs : Int) (AddToHashGlobal i (AddToHashGlobal i bitset).1).1
            = .ok true) := by
  have hn : (0 : Int) ≤ (i.natAbs : Int) := Int.ofNat_nonneg _
  have htwice : AddToHashGlobal i (AddToHashGlobal i bitset).1 = AddToHashGlobal i bitset := by
    by_cases hp : i = minInt ∨ (maxAlloc ≤ (i.natAbs : Int) ∧ len bitset ≤ (i.natAbs : Int))
    · rw [AddToHashGlobal_fst i bitset hi, if_pos hp]
    · have hp2 := (panics_after_grown i i bitset hi hp).not.mpr hp
      rw [AddToHashGlobal_fst i bitset hi, if_neg hp, AddToHashGlobal_eq i _ hi,
        AddToHashGlobal_eq i bitset hi, if_neg (fun h => hp (Or.inl h)),
        if_neg (fun h => hp (Or.inl h)), if_neg (fun h => hp2 (Or.inr h)),
        if_neg (fun h => hp (Or.inr h)), grownSet_idem _ _ hn]
  refine ⟨htwice, ?_, fun h0 h1 => ?_⟩
  · simp only [AddToHashAll]
    cases h1 : AddToHash i bitset with
    | error p => rfl
    | ok mid =>
      simp only
      have hmid := AddToHash_ok_of_Global i bitset mid h1
      have hsecond : AddToHash i mid = .ok mid := by
        rw [AddToHash_eq_Global, ← hmid, htwice]
        rw [AddToHash_eq_Global] at h1
        rw [← hmid] at h1
        exact h1
      rw [hsecond]
  · rw [htwice, AddToHashGlobal_of_range i bitset h0 h1]
    exact ⟨GetFromHash_grownSet_self _ bitset hn, GetFromHash_grownSet_self _ bitset hn⟩

/-- The instance `AddToHash(-2)` twice on a one-flag set. -/
theorem AddToHash_twice_witness :
    AddToHashGlobal (-2) (AddToHashGlobal (-2) [true]).1 = AddToHashGlobal (-2) [true] ∧
      AddToHashAll [-2, -2] [true] = AddToHash (-2) [true] ∧
      GetFromHash ((-2 : Int).natAbs : Int) (AddToHashGlobal (-2) [true]).1 = .ok true ∧
      GetFromHash ((-2 : Int).natAbs : Int)
          (AddToHashGlobal (-2) (AddToHashGlobal (-2) [true]).1).1 = .ok true :=
  ⟨(AddToHash_twice [true] (-2) (by decide)).1, (AddToHash_twice [true] (-2) (by decide)).2.1,
    (AddToHash_twice [true] (-2) (by decide)).2.2 (by decide) (by decide)⟩

/-- C19: the storage is always tight.  In every state reached from the empty membership
set by completed `AddToHash` calls on ints, the set is empty or its last flag
`bitset[len-1]` is true; the set is empty exactly when no call was made, and otherwise
`len(bitset)` is 1 + the largest `|i|` inserted. -/
theorem storage_tight (calls : List Int) (final : List Bool) (hint : ∀ i ∈ calls, isInt i)
    (hrun : AddToHashAll calls [] = .ok final) :
    (final = [] ∨ GetFromHash (len final - 1) final = .ok true) ∧
      (calls = [] → final = []) ∧
      (calls ≠ [] →
        (∃ i ∈ calls, len final = 1 + (i.natAbs : Int)) ∧
          ∀ i ∈ calls, 1 + (i.natAbs : Int) ≤ len final) := by
  obtain ⟨_, hb, hc, hd⟩ := AddToHashAll_inv calls [] final hint hrun
  refine ⟨?_, ?_, fun hne => ⟨?_, ?_⟩⟩
  · rcases hd (Or.inl rfl) with hnil | hlast
    · exact Or.inl hnil
    · right
      have hpos : 0 < final.length := by
        rcases Nat.eq_zero_or_pos final.length with hz | hp
        · rw [List.length_eq_zero.mp hz] at hlast
          simp at hlast
        · exact hp
      apply GetFromHash_of_getElem? _ _ true
      · simp only [len]
        omega
      · have hidx : (len final - 1).toNat = final.length - 1 := by
          simp only [len]
          omega
        rw [hidx]
        exact hlast
  · intro hnil
    subst hnil
    simp only [AddToHashAll, Except.ok.injEq] at hrun
    exact hrun.symm
  · obtain ⟨i, hi⟩ := List.exists_mem_of_ne_nil calls hne
    have := hb i hi
    rcases hc with hz | ⟨k, hk, hlen⟩
    · simp only [List.length_nil] at hz
      omega
    · exact ⟨k, hk, by simp only [len]; omega⟩
  · intro i hi
    have := hb i hi
    simp only [len]
    omega

/-- C19 (witness): the run `2, -7, 4` from the empty set. -/
theorem storage_tight_witness :
    (grownSet 4 (grownSet 7 (grownSet 2 [])) = [] ∨
        GetFromHash (len (grownSet 4 (grownSet 7 (grownSet 2 []))) - 1)
          (grownSet 4 (grownSet 7 (grownSet 2 []))) = .ok true) ∧
      (([2, -7, 4] : List Int) = [] → grownSet 4 (grownSet 7 (grownSet 2 [])) = []) ∧
      (([2, -7, 4] : List Int) ≠ [] →
        (∃ i ∈ ([2, -7, 4] : List Int),
            len (grownSet 4 (grownSet 7 (grownSet 2 []))) = 1 + (i.natAbs : Int)) ∧
          ∀ i ∈ ([2, -7, 4] : List Int),
            1 + (i.natAbs : Int) ≤ len (grownSet 4 (grownSet 7 (grownSet 2 [])))) :=
  storage_tight [2, -7, 4] (grownSet 4 (grownSet 7 (grownSet 2 []))) (by decide) (by decide)

/-- C20: insertion order does not matter.  For every state and all ints `i` and `j`,
`AddToHash(i)` followed by `AddToHash(j)` leaves the membership set that `AddToHash(j)`
followed by `AddToHash(i)` leaves, and for `i`, `j` above the minimum int the two orders
have the same outcome; the two orders can differ in the number of reallocations (1 then 5
on the empty set reallocates twice, 5 then 1 once). -/
theorem insertion_order (bitset : List Bool) (i j : Int) (hi : isInt i) (hj : isInt j) :
    (AddToHashGlobal j (AddToHashGlobal i bitset).1).1
        = (AddToHashGlobal i (AddToHashGlobal j bitset).1).1 ∧
      (minInt < i → minInt < j →
        AddToHashAll [i, j] bitset = AddToHashAll [j, i] bitset) ∧
      (reallocates 1 [] = true ∧ reallocates 5 (AddToHashGlobal 1 []).1 = true ∧
        reallocates 5 [] = true ∧ reallocates 1 (AddToHashGlobal 5 []).1 = false) := by
  have hni : (0 : Int) ≤ (i.natAbs : Int) := Int.ofNat_nonneg _
  have hnj : (0 : Int) ≤ (j.natAbs : Int) := Int.ofNat_nonneg _
  refine ⟨?_, fun hmi hmj => ?_, by decide⟩
  · by_cases hpi : i = minInt ∨ (maxAlloc ≤ (i.natAbs : Int) ∧ len bitset ≤ (i.natAbs : Int))
    · by_cases hpj : j = minInt ∨ (maxAlloc ≤ (j.natAbs : Int) ∧ len bitset ≤ (j.natAbs : Int))
      · rw [AddToHashGlobal_fst i bitset hi, if_pos hpi, AddToHashGlobal_fst j bitset hj,
          if_pos hpj, AddToHashGlobal_fst i bitset hi, if_pos hpi]
      · have hpi2 := (panics_after_grown i j bitset hj hpj).mpr hpi
        rw [AddToHashGlobal_fst i bitset hi, if_pos hpi, AddToHashGlobal_fst j bitset hj,
          if_neg hpj, AddToHashGlobal_fst i _ hi, if_pos hpi2]
    · by_cases hpj : j = minInt ∨ (maxAlloc ≤ (j.natAbs : Int) ∧ len bitset ≤ (j.natAbs : Int))
      · have hpj2 := (panics_after_grown j i bitset hi hpi).mpr hpj
        rw [AddToHashGlobal_fst i bitset hi, if_neg hpi, AddToHashGlobal_fst j _ hj,
          if_pos hpj2, AddToHashGlobal_fst j bitset hj, if_pos hpj,
          AddToHashGlobal_fst i bitset hi, if_neg hpi]
      · have hpi2 := (panics_after_grown i j bitset hj hpj).not.mpr hpi
        have hpj2 := (panics_after_grown j i bitset hi hpi).not.mpr hpj
        rw [AddToHashGlobal_fst i bitset hi, if_neg hpi, AddToHashGlobal_fst j _ hj,
          if_neg hpj2, AddToHashGlobal_fst j bitset hj, if_neg hpj,
          AddToHashGlobal_fst i _ hi, if_neg hpi2, grownSet_comm _ _ bitset hnj hni]
  · have hi0 : i ≠ minInt := by omega
    have hj0 : j ≠ minInt := by omega
    simp only [AddToHashAll]
    by_cases hpi : maxAlloc ≤ (i.natAbs : Int) ∧ len bitset ≤ (i.natAbs : Int)
    · by_cases hpj : maxAlloc ≤ (j.natAbs : Int) ∧ len bitset ≤ (j.natAbs : Int)
      · rw [AddToHash_above_minInt i bitset hi hmi, if_pos hpi,
          AddToHash_above_minInt j bitset hj hmj, if_pos hpj]
      · have hpi2 := (panics_after_grown i j bitset hj (fun h => h.elim hj0 hpj)).mpr
          (Or.inr hpi)
        rw [AddToHash_above_minInt i bitset hi hmi, if_pos hpi,
          AddToHash_above_minInt j bitset hj hmj, if_neg hpj]
        simp only
        rw [AddToHash_above_minInt i _ hi hmi, if_pos (hpi2.elim (fun h => absurd h hi0) id)]
    · by_cases hpj : maxAlloc ≤ (j.natAbs : Int) ∧ len bitset ≤ (j.natAbs : Int)
      · have hpj2 := (panics_after_grown j i bitset hi (fun h => h.elim hi0 hpi)).mpr
          (Or.inr hpj)
        rw [AddToHash_above_minInt i bitset hi hmi, if_neg hpi,
          AddToHash_above_minInt j bitset hj hmj, if_pos hpj]
        simp only
        rw [AddToHash_above_minInt j _ hj hmj, if_pos (hpj2.elim (fun h => absurd h hj0) id)]
      · have hpi2 := (panics_after_grown i j bitset hj (fun h => h.elim hj0 hpj)).not.mpr
          (fun h => h.elim hi0 hpi)
        have hpj2 := (panics_after_grown j i bitset hi (fun h => h.elim hi0 hpi)).not.mpr
          (fun h => h.elim hj0 hpj)
        rw [AddToHash_above_minInt i bitset hi hmi, if_neg hpi,
          AddToHash_above_minInt j bitset hj hmj, if_neg hpj]
        simp only
        rw [AddToHash_above_minInt j _ hj hmj, if_neg (fun h => hpj2 (Or.inr h)),
          AddToHash_above_minInt i _ hi hmi, if_neg (fun h => hpi2 (Or.inr h)),
          grownSet_comm _ _ bitset hnj hni]

/-- C20 (witness): `AddToHash(1)` and `AddToHash(-5)` on a one-flag set, in both orders. -/
theorem insertion_order_witness :
    (AddToHashGlobal (-5) (AddToHashGlobal 1 [true]).1).1
        = (AddToHashGlobal 1 (AddToHashGlobal (-5) [true]).1).1 ∧
      AddToHashAll [1, -5] [true] = AddToHashAll [-5, 1] [true] :=
  ⟨(insertion_order [true] 1 (-5) (by decide) (by decide)).1,
    (insertion_order [true] 1 (-5) (by decide) (by decide)).2.1 (by decide) (by decide)⟩

end Gobfs
